import Mathlib

/-!
Shallow embedding of the shell parameter-expansion engine of `sh.go`
(function `Subst` and its helper closures `stripLeft`, `stripLeftGreedy`,
`stripRight`, `stripRightGreedy`, `subst`, `substAll`), together with the
glob matcher `path/filepath.Match` of the Go standard library that every
scan strategy calls.

Modelling conventions:
* Go byte strings are `List Nat` (each element one byte value);
  character constants appear as their byte values (`35 = '#'`, `37 = '%'`,
  `42 = '*'`, `47 = '/'` which is also `filepath.Separator`, `63 = '?'`,
  `92 = '\'`, `58 = ':'`, `91 = '['`, `93 = ']'`, `94 = '^'`, `44 = ','`,
  `45 = '-'`, `61 = '='`, `43 = '+'`).
* Go `int` values are `Int`; rune values are `Nat`.
* Loops are modelled by structural recursion on an explicit counter that
  mirrors the loop bound, so that every definition evaluates by kernel
  reduction.
* Go panics are explicit `Outcome` error values; the possible
  non-termination of the global-replace loop `substAll` is modelled by a
  fuel counter whose exhaustion (`none`) happens exactly when the Go loop
  runs forever.
-/

namespace ShSubst

/-- Byte size of a UTF-8 encoding given its first byte, following the
`first` table of Go's `unicode/utf8`; `0` marks an invalid first byte. -/
def utf8Size (b : Nat) : Nat :=
  if b < 0x80 then 1
  else if b < 0xC2 then 0
  else if b < 0xE0 then 2
  else if b < 0xF0 then 3
  else if b < 0xF5 then 4
  else 0

/-- Accepted range for the second byte of a multi-byte encoding, per the
`acceptRanges` table of Go's `unicode/utf8`. -/
def utf8Accept (b : Nat) : Nat × Nat :=
  if b = 0xE0 then (0xA0, 0xBF)
  else if b = 0xED then (0x80, 0x9F)
  else if b = 0xF0 then (0x90, 0xBF)
  else if b = 0xF4 then (0x80, 0x8F)
  else (0x80, 0xBF)

/-- `utf8.DecodeRuneInString`: first rune of the byte sequence and the
number of bytes it occupies.  Empty input gives `(RuneError, 0)`, invalid
input `(RuneError, 1)`, with `RuneError = 0xFFFD`. -/
def decodeRune (s : List Nat) : Nat × Nat :=
  match s with
  | [] => (0xFFFD, 0)
  | b0 :: rest =>
    if b0 < 0x80 then (b0, 1)
    else
      let sz := utf8Size b0
      if sz = 0 then (0xFFFD, 1)
      else if rest.length + 1 < sz then (0xFFFD, 1)
      else
        let lohi := utf8Accept b0
        let b1 := rest.headD 0
        if b1 < lohi.1 ∨ lohi.2 < b1 then (0xFFFD, 1)
        else if sz = 2 then ((b0 % 0x20) * 0x40 + b1 % 0x40, 2)
        else
          let b2 := rest.getD 1 0
          if b2 < 0x80 ∨ 0xBF < b2 then (0xFFFD, 1)
          else if sz = 3 then
            ((b0 % 0x10) * 0x1000 + (b1 % 0x40) * 0x40 + b2 % 0x40, 3)
          else
            let b3 := rest.getD 2 0
            if b3 < 0x80 ∨ 0xBF < b3 then (0xFFFD, 1)
            else ((b0 % 8) * 0x40000 + (b1 % 0x40) * 0x1000 +
                  (b2 % 0x40) * 0x40 + b3 % 0x40, 4)

/-- `getEsc` of `path/filepath`: read one possibly backslash-escaped
character (as a rune) from a character-class chunk; `none` models
`ErrBadPattern`. -/
def getEsc (chunk : List Nat) : Option (Nat × List Nat) :=
  match chunk with
  | [] => none
  | c :: _ =>
    if c = 45 ∨ c = 93 then none
    else
      let chunk1 := if c = 92 then chunk.drop 1 else chunk
      if chunk1 = [] then none
      else
        let rn := decodeRune chunk1
        if rn.1 = 0xFFFD ∧ rn.2 = 1 then none
        else
          let nchunk := chunk1.drop rn.2
          if nchunk = [] then none else some (rn.1, nchunk)

/-- Result of `matchChunk`: `err` is `ErrBadPattern`, `nomatch` a clean
failure, `ok rest` a match with `rest` the unconsumed part of the name. -/
inductive MRes where
  | err
  | nomatch
  | ok (rest : List Nat)
  deriving DecidableEq, Repr

/-- The character-class range loop inside `matchChunk`.  Arguments: fuel,
remaining chunk, candidate rune, accumulated match flag, count of parsed
ranges.  `none` models `ErrBadPattern`.  The fuel only needs to cover the
number of loop iterations, each of which consumes at least one chunk
byte. -/
def rangeLoopF : Nat → List Nat → Nat → Bool → Nat → Option (Bool × List Nat)
  | 0, _, _, _, _ => none
  | fuel + 1, chunk, r, m, nr =>
    if chunk.headD 0 = 93 ∧ chunk ≠ [] ∧ 0 < nr then some (m, chunk.drop 1)
    else
      match getEsc chunk with
      | none => none
      | some (lo, chunk1) =>
        if chunk1.headD 0 = 45 then
          match getEsc (chunk1.drop 1) with
          | none => none
          | some (hi, chunk2) =>
            rangeLoopF fuel chunk2 r (m || decide (lo ≤ r ∧ r ≤ hi)) (nr + 1)
        else
          rangeLoopF fuel chunk1 r (m || decide (lo ≤ r ∧ r ≤ lo)) (nr + 1)

/-- `matchChunk` of `path/filepath`: checks whether `chunk` matches a
prefix of `s` and returns the remainder of `s`.  `failed0` is Go's flag
recording that the match has already failed while the rest of the chunk
is still scanned for syntax errors.  Each loop iteration consumes at
least one chunk byte, so fuel `chunk.length + 1` is always sufficient. -/
def matchChunkF : Nat → Bool → List Nat → List Nat → MRes
  | _, failed, [], s => if failed then .nomatch else .ok s
  | 0, _, _ :: _, _ => .err
  | fuel + 1, failed0, c :: crest, s =>
    let failed := failed0 || s.isEmpty
    if c = 91 then
      let rs :=
        if failed then (0, s)
        else (let rn := decodeRune s; (rn.1, s.drop rn.2))
      let negchunk :=
        if crest.headD 0 = 94 ∧ crest ≠ [] then (true, crest.drop 1)
        else (false, crest)
      match rangeLoopF (negchunk.2.length + 1) negchunk.2 rs.1 false 0 with
      | none => .err
      | some (m, chunk2) =>
        matchChunkF fuel (if m = negchunk.1 then true else failed) chunk2 rs.2
    else if c = 63 then
      if failed then matchChunkF fuel failed crest s
      else matchChunkF fuel (s.headD 0 == 47) crest (s.drop (decodeRune s).2)
    else if c = 92 then
      match crest with
      | [] => .err
      | e :: crest2 =>
        if failed then matchChunkF fuel failed crest2 s
        else matchChunkF fuel (e != s.headD 0) crest2 (s.drop 1)
    else
      if failed then matchChunkF fuel failed crest s
      else matchChunkF fuel (c != s.headD 0) crest (s.drop 1)

/-- `matchChunk` with its always-sufficient fuel. -/
def matchChunk (chunk s : List Nat) : MRes :=
  matchChunkF (chunk.length + 1) false chunk s

/-- Result of the `*`-backtracking loop of `filepath.Match`. -/
inductive StarRes where
  | abort
  | exhausted
  | found (t : List Nat)
  deriving DecidableEq, Repr

/-- The `*`-backtracking loop of `filepath.Match`: skip one byte of the
name at a time, never skipping across a separator, and retry the chunk;
when the chunk is the last one (`restEmpty`), only a match consuming the
whole name is accepted. -/
def starLoopF (chunk : List Nat) (restEmpty : Bool) : List Nat → StarRes
  | [] => .exhausted
  | b :: name1 =>
    if b = 47 then .exhausted
    else
      match matchChunk chunk name1 with
      | .err => .abort
      | .ok t =>
        if restEmpty ∧ t ≠ [] then starLoopF chunk restEmpty name1
        else .found t
      | .nomatch => starLoopF chunk restEmpty name1

/-- The chunk scanner of `scanChunk`; `inr` tracks whether the scan is
inside a `[...]` class, where a `*` does not end the chunk, and a
backslash makes the following byte part of the chunk. -/
def scanBody : List Nat → Bool → List Nat × List Nat
  | [], _ => ([], [])
  | 92 :: c :: rest, inr =>
    let chr := scanBody rest inr
    (92 :: c :: chr.1, chr.2)
  | [92], _ => ([92], [])
  | 91 :: rest, _ =>
    let chr := scanBody rest true
    (91 :: chr.1, chr.2)
  | 93 :: rest, _ =>
    let chr := scanBody rest false
    (93 :: chr.1, chr.2)
  | 42 :: rest, inr =>
    if inr then
      let chr := scanBody rest inr
      (42 :: chr.1, chr.2)
    else ([], 42 :: rest)
  | b :: rest, inr =>
    let chr := scanBody rest inr
    (b :: chr.1, chr.2)

/-- `scanChunk` of `path/filepath`: strip leading `*`s, then split off
the next star-free chunk of the pattern. -/
def scanChunkGo : Bool → List Nat → Bool × List Nat × List Nat
  | _, 42 :: rest => scanChunkGo true rest
  | star, p =>
    let chr := scanBody p false
    (star, chr.1, chr.2)

/-- `scanChunk` entered with no star seen yet. -/
def scanChunk (p : List Nat) : Bool × List Nat × List Nat := scanChunkGo false p

/-- `filepath.Match`, fuel-indexed; the fuel bounds the number of chunk
iterations and `pattern.length + 1` is always sufficient.  The result is
Go's `matched`; all error returns of the Go code carry `matched = false`
and the callers in `sh.go` discard the error value. -/
def matchF : Nat → List Nat → List Nat → Bool
  | _, [], name => name.isEmpty
  | 0, _ :: _, _ => false
  | fuel + 1, p, name =>
    let scr := scanChunk p
    let star := scr.1
    let chunk := scr.2.1
    let rest := scr.2.2
    if star ∧ chunk = [] then !(name.contains 47)
    else
      match matchChunk chunk name with
      | .ok t =>
        if t = [] ∨ rest ≠ [] then matchF fuel rest t
        else if star then
          match starLoopF chunk rest.isEmpty name with
          | .found t1 => matchF fuel rest t1
          | _ => false
        else false
      | .err => false
      | .nomatch =>
        if star then
          match starLoopF chunk rest.isEmpty name with
          | .found t1 => matchF fuel rest t1
          | _ => false
        else false

/-- `filepath.Match` with its always-sufficient fuel. -/
def filepathMatch (p name : List Nat) : Bool := matchF (p.length + 1) p name

/-- Go's slice `s[a:b]` for `0 ≤ a ≤ b ≤ len s` (the in-range case;
out-of-range slices panic and are handled explicitly at their use
sites). -/
def goSlice (s : List Nat) (a b : Nat) : List Nat := (s.take b).drop a

/-- The ascending scan of `stripLeft` (operator `#`): return the first
`i` with `i < strLen` such that the prefix `str[0:i]` matches, or
`strLen` when the loop runs out.  The counter `k` counts the remaining
iterations, `i` is Go's loop variable. -/
def scanUpTakeF (pat str : List Nat) : Nat → Nat → Nat
  | 0, i => i
  | k + 1, i =>
    if filepathMatch pat (str.take i) then i else scanUpTakeF pat str k (i + 1)

/-- `stripLeft` of `sh.go` (operator `#`): drop the shortest matching
prefix; when no prefix of length `< strLen` matches, the loop variable
ends at `strLen` and the whole subject is dropped. -/
def stripLeft (str pat : List Nat) : List Nat :=
  if str = [] then str
  else str.drop (scanUpTakeF pat str str.length 0)

/-- The descending scan of `stripLeftGreedy` (operator `##`): the first
`i` from `strLen` down to `0` whose prefix `str[0:i]` matches, `none`
when none matches (Go's `i < 0`). -/
def scanDownTakeF (pat str : List Nat) : Nat → Option Nat
  | 0 => if filepathMatch pat (str.take 0) then some 0 else none
  | i + 1 =>
    if filepathMatch pat (str.take (i + 1)) then some (i + 1)
    else scanDownTakeF pat str i

/-- `stripLeftGreedy` of `sh.go` (operator `##`): drop the longest
matching prefix, or return the subject unchanged when nothing matches. -/
def stripLeftGreedy (str pat : List Nat) : List Nat :=
  if str = [] then str
  else
    match scanDownTakeF pat str str.length with
    | some i => str.drop i
    | none => str

/-- The descending scan of `stripRight` (operator `%`): the first `i`
from `strLen` down to `0` whose suffix `str[i:]` matches, `none` when
none matches (Go's `i < 0`). -/
def scanDownDropF (pat str : List Nat) : Nat → Option Nat
  | 0 => if filepathMatch pat (str.drop 0) then some 0 else none
  | i + 1 =>
    if filepathMatch pat (str.drop (i + 1)) then some (i + 1)
    else scanDownDropF pat str i

/-- `stripRight` of `sh.go` (operator `%`): remove the shortest matching
suffix, or return the subject unchanged when nothing matches. -/
def stripRight (str pat : List Nat) : List Nat :=
  if str = [] then str
  else
    match scanDownDropF pat str str.length with
    | some i => str.take i
    | none => str

/-- The ascending scan of `stripRightGreedy` (operator `%%`): the first
`i < strLen` whose suffix `str[i:]` matches, or `strLen` when the loop
runs out. -/
def scanUpDropF (pat str : List Nat) : Nat → Nat → Nat
  | 0, i => i
  | k + 1, i =>
    if filepathMatch pat (str.drop i) then i else scanUpDropF pat str k (i + 1)

/-- `stripRightGreedy` of `sh.go` (operator `%%`): remove the longest
matching suffix; when nothing matches the loop variable ends at `strLen`
and `str[:strLen]` is the subject unchanged. -/
def stripRightGreedy (str pat : List Nat) : List Nat :=
  if str = [] then str
  else str.take (scanUpDropF pat str str.length 0)

/-- The inner descending scan of `subst` for patterns containing `*`:
the largest `i` with `start ≤ i ≤ strLen` such that `str[start:i]`
matches, scanned downwards; `none` is Go's `i < start`.  Called with
counter `k = strLen - start`, so the first probe is `i = strLen`. -/
def globScanF (pat str : List Nat) (start : Nat) : Nat → Option Nat
  | 0 =>
    if filepathMatch pat (goSlice str start start) then some start else none
  | k + 1 =>
    if filepathMatch pat (goSlice str start (start + k + 1)) then
      some (start + k + 1)
    else globScanF pat str start k

/-- The outer loop of `subst` for patterns containing `*`: bytes at start
positions admitting no match are copied to the accumulator; at the first
start position with a match the replacement is written and the suffix
from the match end becomes `left`.  Counter `k = strLen - start`. -/
def globLoopF (pat repl str : List Nat) : Nat → Nat → List Nat →
    List Nat × List Nat
  | 0, _, acc => (acc, [])
  | k + 1, start, acc =>
    match globScanF pat str start (str.length - start) with
    | none => globLoopF pat repl str k (start + 1) (acc ++ [str.getD start 0])
    | some i => (acc ++ repl, str.drop i)

/-- The inner ascending scan of `subst` for star-free patterns: the first
`i` with `start + 1 ≤ i ≤ strLen` such that `str[start:i]` matches;
`none` is Go's `i > strLen`.  Called with counter `k = strLen - start`
and `i = start + 1`. -/
def exactScanF (pat str : List Nat) (start : Nat) : Nat → Nat → Option Nat
  | 0, _ => none
  | k + 1, i =>
    if filepathMatch pat (goSlice str start i) then some i
    else exactScanF pat str start k (i + 1)

/-- The outer loop of `subst` for star-free non-empty patterns. -/
def exactLoopF (pat repl str : List Nat) : Nat → Nat → List Nat →
    List Nat × List Nat
  | 0, _, acc => (acc, [])
  | k + 1, start, acc =>
    match exactScanF pat str start (str.length - start) (start + 1) with
    | none => exactLoopF pat repl str k (start + 1) (acc ++ [str.getD start 0])
    | some i => (acc ++ repl, str.drop i)

/-- The empty-pattern branch of `subst`: write the replacement before
every byte of the subject. -/
def interleaveF (repl : List Nat) : List Nat → List Nat
  | [] => []
  | b :: rest => repl ++ b :: interleaveF repl rest

/-- `subst` of `sh.go` (single replacement, operator `/`): returns
`(replaced, left)`.  Go computes `foundGlob` by scanning the pattern for
a `*` from the end; it is true exactly when the pattern contains `*`. -/
def subst (str pat repl : List Nat) : List Nat × List Nat :=
  let foundGlob := pat.contains 42
  if foundGlob then globLoopF pat repl str str.length 0 []
  else if pat = [] then (interleaveF repl str, [])
  else exactLoopF pat repl str str.length 0 []

/-- `substAll` of `sh.go` (global replacement, operator `//`),
fuel-indexed: one fuel unit per round.  Each round either terminates the
loop (`left = []`) or hands a strict suffix to the next round, except
when `left` equals the whole current subject, in which case every later
round repeats identically and the Go loop runs forever; fuel
`str.length + 1` is therefore exhausted (`none`) exactly when the Go
loop diverges. -/
def substAllF (pat repl : List Nat) : Nat → List Nat → List Nat →
    Option (List Nat)
  | 0, _, _ => none
  | fuel + 1, str, acc =>
    let rl := subst str pat repl
    if rl.2 = [] then some (acc ++ rl.1)
    else substAllF pat repl fuel rl.2 (acc ++ rl.1)

/-- `substAll` with the fuel that separates termination from
divergence. -/
def substAll (pat repl str : List Nat) : Option (List Nat) :=
  substAllF pat repl (str.length + 1) str []

/-- The delimiter search of the `/` operator: first index `i ≥ skip`
with `pattern[i] = '/'` and `pattern[i-1] ≠ '\'`, or `pattern.length`.
Counter `k = pattern.length - skip`. -/
def findSlashF (pattern : List Nat) : Nat → Nat → Nat
  | 0, i => i
  | k + 1, i =>
    if pattern.getD i 0 = 47 ∧ pattern.getD (i - 1) 0 ≠ 92 then i
    else findSlashF pattern k (i + 1)

/-- The search for the second `:` of the slice operator: first index
`i ≥ 1` with `pattern[i] = ':'`, or `pattern.length`.  Counter
`k = pattern.length - 1`. -/
def findColonF (pattern : List Nat) : Nat → Nat → Nat
  | 0, i => i
  | k + 1, i =>
    if pattern.getD i 0 = 58 then i else findColonF pattern k (i + 1)

/-- `strings.ToUpper` restricted to ASCII (the only case the claims
exercise; Go additionally applies Unicode case mapping to well-formed
multi-byte runes, which no claim touches). -/
def upperByte (b : Nat) : Nat := if 97 ≤ b ∧ b ≤ 122 then b - 32 else b

/-- `strings.ToLower` restricted to ASCII. -/
def lowerByte (b : Nat) : Nat := if 65 ≤ b ∧ b ≤ 90 then b + 32 else b

/-- Digit-accumulation loop of `strconv.Atoi`: `none` on any non-digit
byte. -/
def digitsValF : List Nat → Nat → Option Nat
  | [], acc => some acc
  | d :: rest, acc =>
    if 48 ≤ d ∧ d ≤ 57 then digitsValF rest (acc * 10 + (d - 48)) else none

/-- `strconv.Atoi`: optional single sign, at least one digit, all bytes
digits, result within the 64-bit `int` range; `none` models the error
that makes `gox.Must` panic. -/
def goAtoi (s : List Nat) : Option Int :=
  match s with
  | [] => none
  | c :: rest =>
    let sds : Bool × List Nat :=
      if c = 43 then (false, rest)
      else if c = 45 then (true, rest)
      else (false, s)
    if sds.2 = [] then none
    else
      match digitsValF sds.2 0 with
      | none => none
      | some v =>
        let i : Int := if sds.1 then -(v : Int) else (v : Int)
        if i < -(2 ^ 63) ∨ (2 ^ 63 - 1 : Int) < i then none else some i

/-- Result of a `Subst` call: the Go function either returns a string or
panics; the global-replace loop can also run forever. -/
inductive Outcome where
  | ok (r : List Nat)
  | badSubst (expr : List Nat)
  | unknownPattern (expr : List Nat)
  | sliceErr
  | atoiPanic
  | diverge
  deriving DecidableEq, Repr

/-- `Subst` of `sh.go`: the operator dispatcher.  `badSubst` models
`panic(pattern + ": Bad substitution")`, `unknownPattern` models
`panic("Unknown pattern: " + pattern)`, `sliceErr` a runtime
out-of-range slice panic, `atoiPanic` the `gox.Must` panic on a failed
`strconv.Atoi`, and `diverge` the non-termination of `substAll`. -/
def Subst (str pattern : List Nat) : Outcome :=
  let strLen := str.length
  let patLen := pattern.length
  if patLen = 0 then .ok str
  else
    let c := pattern.headD 0
    if c = 35 then
      if 1 < patLen ∧ pattern.getD 1 0 = 35 then
        .ok (stripLeftGreedy str (pattern.drop 2))
      else .ok (stripLeft str (pattern.drop 1))
    else if c = 37 then
      if 1 < patLen ∧ pattern.getD 1 0 = 37 then
        .ok (stripRightGreedy str (pattern.drop 2))
      else .ok (stripRight str (pattern.drop 1))
    else if c = 47 then
      let skip : Nat := if 1 < patLen ∧ pattern.getD 1 0 = 47 then 2 else 1
      let i := findSlashF pattern (patLen - skip) skip
      let j := if i = patLen then i else i + 1
      if skip = 2 then
        match substAll (goSlice pattern skip i) (pattern.drop j) str with
        | some r => .ok r
        | none => .diverge
      else
        let rl := subst str (goSlice pattern skip i) (pattern.drop j)
        .ok (rl.1 ++ rl.2)
    else if c = 94 then
      if 1 < patLen ∧ pattern.getD 1 0 = 94 then .ok (str.map upperByte)
      else if str = [] then .sliceErr
      else .ok (upperByte (str.headD 0) :: str.tail)
    else if c = 44 then
      if 1 < patLen ∧ pattern.getD 1 0 = 44 then .ok (str.map lowerByte)
      else if str = [] then .sliceErr
      else .ok (lowerByte (str.headD 0) :: str.tail)
    else if c = 45 ∨ c = 61 then
      .ok (if str = [] then pattern.drop 1 else str)
    else if c = 43 then
      .ok (if str = [] then str else pattern.drop 1)
    else if c = 63 then
      if str = [] then .badSubst pattern else .ok str
    else if c = 58 then
      if patLen = 1 then .badSubst pattern
      else
        let i := findColonF pattern (patLen - 1) 1
        let p1 := goSlice pattern 1 i
        let p2 := pattern.drop i
        let startO : Option Nat :=
          if p1 = [] then some 0
          else (goAtoi p1).map fun v => min (max v 0).toNat strLen
        match startO with
        | none => .atoiPanic
        | some start =>
          let endO : Option Int :=
            if p2 = [] then some (strLen : Int)
            else if p2 = [58] then some (start : Int)
            else
              (goAtoi (p2.drop 1)).map fun l =>
                if l < 0 then (strLen : Int) + l else (start : Int) + l
          match endO with
          | none => .atoiPanic
          | some e =>
            if e < (start : Int) then .badSubst pattern
            else if (strLen : Int) < e then .sliceErr
            else .ok (goSlice str start e.toNat)
    else .unknownPattern pattern

/-! ### Glob semantics as stated by the specification

`specMatch` is written from the specification's words alone (`*` matches
any byte sequence including the empty one, `?` matches exactly one byte,
any other byte matches only itself, anchored at both ends); it is the
comparison point for the refinement claim about the matcher. -/

/-- The specification's glob semantics over bytes, fuel-indexed; each
step shrinks `p.length + c.length`, so `p.length + c.length + 1` fuel
always suffices. -/
def specMatchF : Nat → List Nat → List Nat → Bool
  | 0, _, _ => false
  | fuel + 1, p, c =>
    match p with
    | [] => c.isEmpty
    | 42 :: p1 =>
      specMatchF fuel p1 c ||
        (match c with
         | [] => false
         | _ :: c1 => specMatchF fuel (42 :: p1) c1)
    | 63 :: p1 =>
      (match c with
       | [] => false
       | _ :: c1 => specMatchF fuel p1 c1)
    | b :: p1 =>
      (match c with
       | [] => false
       | b1 :: c1 => b == b1 && specMatchF fuel p1 c1)

/-- The specification's glob semantics over bytes: `*` matches any
sequence (including the empty one), `?` exactly one byte, any other
byte only itself, anchored at both ends. -/
def specMatch (p c : List Nat) : Bool :=
  specMatchF (p.length + c.length + 1) p c

/-- Patterns in the plain-glob fragment: every byte is ASCII and neither
`[` nor `\`, so no character classes and no escapes occur. -/
def patPlain (p : List Nat) : Bool :=
  p.all fun b => b < 128 && b ≠ 91 && b ≠ 92

/-- Candidates in the separator-free ASCII fragment. -/
def candPlain (s : List Nat) : Bool :=
  s.all fun b => b < 128 && b ≠ 47

/-- Reference semantics of a star-free chunk in the plain fragment:
consume the chunk against a prefix of the candidate (`?` eats one byte,
a literal eats itself) and return the remainder on success. -/
def chunkAccept : List Nat → List Nat → Option (List Nat)
  | [], s => some s
  | 63 :: c, s =>
    (match s with
     | [] => none
     | _ :: s1 => chunkAccept c s1)
  | l :: c, s =>
    (match s with
     | [] => none
     | b :: s1 => if l = b then chunkAccept c s1 else none)

/-! ### Claims -/

/-- Claim C5: a substitution whose operator tag is `?` fails with the
malformed-substitution signal carrying the original expression exactly
when the subject is empty, and returns the subject unchanged
otherwise. -/
theorem claim_C5 (str rest : List Nat) :
    Subst str (63 :: rest) =
      if str = [] then Outcome.badSubst (63 :: rest) else Outcome.ok str := by
  simp [Subst]

/-- Claim C4, failing inputs: on the empty subject the single-byte case
operators `^` and `,` evaluate `str[:1]`, an out-of-range slice that
panics at run time, while the full-subject forms `^^` and `,,` return
the empty string as the specification demands for all four. -/
theorem claim_C4_bug :
    Subst [] [94] = Outcome.sliceErr ∧
    Subst [] [44] = Outcome.sliceErr ∧
    Subst [] [94, 94] = Outcome.ok [] ∧
    Subst [] [44, 44] = Outcome.ok [] := by
  decide

/-- Claim C1, counterexample: for subject `"hello"` and pattern `"x"` no
suffix length matches, yet the shortest-suffix operator `%` returns the
subject unchanged rather than the empty string the claim demands. -/
theorem claim_C1_cex :
    (∀ i, i ≤ 5 →
      filepathMatch [120] (List.drop i [104, 101, 108, 108, 111]) = false) ∧
    Subst [104, 101, 108, 108, 111] [37, 120] =
      Outcome.ok [104, 101, 108, 108, 111] := by
  decide

/-- Claim C2, counterexample: the matcher never lets `*` match the path
separator byte `/` (47), so `*` does not match an arbitrary byte
sequence: the greedy prefix strip `##*` of subject `"a/b"` leaves
`"/b"` instead of consuming everything. -/
theorem claim_C2_cex :
    filepathMatch [42] [47] = false ∧
    Subst [97, 47, 98] [35, 35, 42] = Outcome.ok [47, 98] := by
  decide

/-- Claim C9, counterexample: global replacement of the all-star pattern
`*` over the subject `"/b"` never terminates — the empty window matches
at the first start position but the pattern cannot consume the separator
byte, so every round leaves the subject unchanged. -/
theorem claim_C9_cex :
    Subst [47, 98] [47, 47, 42] = Outcome.diverge := by
  decide

/-- Claim C10, counterexample: with subject `"hello"` and expression
`":7:0"` the pair `start = 7`, `length = 0` satisfies
`start + length > len(subject)`, yet the operation returns the empty
string instead of crashing, because the parsed start is clamped to the
subject length before the end is computed. -/
theorem claim_C10_cex :
    5 < 7 + 0 ∧
    Subst [104, 101, 108, 108, 111] [58, 55, 58, 48] = Outcome.ok [] := by
  decide

/-- Claim C6: replacement with an empty pattern interleaves the
replacement text before every byte of the subject — for every subject
and replacement, the global-replace expression `"///" + repl` parses to
an empty pattern and an arbitrary replacement, finishes in one round,
and returns the replacement inserted before each subject byte; in
particular `substitute("hello", "///a") = "ahaealalao"`. -/
theorem claim_C6 :
    (∀ str repl : List Nat,
      Subst str (47 :: 47 :: 47 :: repl) = Outcome.ok (interleaveF repl str)) ∧
    Subst [104, 101, 108, 108, 111] [47, 47, 47, 97] =
      Outcome.ok [97, 104, 97, 101, 97, 108, 97, 108, 97, 111] := by
  constructor
  · intro str repl
    simp [Subst, findSlashF, goSlice, substAll, substAllF, subst]
  · decide

/-! ### No-match behaviour of the strip strategies (claim C1) -/

theorem scanUpTakeF_all (pat str : List Nat) :
    ∀ k i, (∀ j, i ≤ j → j < i + k → filepathMatch pat (str.take j) = false) →
    scanUpTakeF pat str k i = i + k := by
  intro k
  induction k with
  | zero => intro i _; simp [scanUpTakeF]
  | succ k ih =>
    intro i h
    rw [scanUpTakeF, h i le_rfl (by omega), if_neg (by simp)]
    have := ih (i + 1) fun j hj hj2 => h j (by omega) (by omega)
    omega

theorem scanUpDropF_all (pat str : List Nat) :
    ∀ k i, (∀ j, i ≤ j → j < i + k → filepathMatch pat (str.drop j) = false) →
    scanUpDropF pat str k i = i + k := by
  intro k
  induction k with
  | zero => intro i _; simp [scanUpDropF]
  | succ k ih =>
    intro i h
    rw [scanUpDropF, h i le_rfl (by omega), if_neg (by simp)]
    have := ih (i + 1) fun j hj hj2 => h j (by omega) (by omega)
    omega

theorem scanDownTakeF_none (pat str : List Nat) :
    ∀ m, (∀ i, i ≤ m → filepathMatch pat (str.take i) = false) →
    scanDownTakeF pat str m = none := by
  intro m
  induction m with
  | zero =>
    intro h
    have h0 := h 0 le_rfl
    simp only [List.take_zero] at h0
    simp [scanDownTakeF, h0]
  | succ m ih =>
    intro h
    rw [scanDownTakeF, h (m + 1) le_rfl, if_neg (by simp)]
    exact ih fun i hi => h i (by omega)

theorem scanDownDropF_none (pat str : List Nat) :
    ∀ m, (∀ i, i ≤ m → filepathMatch pat (str.drop i) = false) →
    scanDownDropF pat str m = none := by
  intro m
  induction m with
  | zero =>
    intro h
    have h0 := h 0 le_rfl
    simp only [List.drop_zero] at h0
    simp [scanDownDropF, h0]
  | succ m ih =>
    intro h
    rw [scanDownDropF, h (m + 1) le_rfl, if_neg (by simp)]
    exact ih fun i hi => h i (by omega)

/-- Claim C1 (amended): when no prefix length of the subject matches the
pattern, the shortest-prefix operator `#` returns the empty string while
the greedy `##` returns the subject unchanged; when no suffix length
matches, both suffix operators `%` and `%%` return the subject
unchanged — the shortest-suffix strip does not share the empty-string
fallback of the shortest-prefix strip. -/
theorem claim_C1 (str pat : List Nat)
    (hpre : ∀ i, i ≤ str.length → filepathMatch pat (str.take i) = false)
    (hsuf : ∀ i, i ≤ str.length → filepathMatch pat (str.drop i) = false) :
    stripLeft str pat = [] ∧ stripRight str pat = str ∧
    stripLeftGreedy str pat = str ∧ stripRightGreedy str pat = str := by
  refine ⟨?_, ?_, ?_, ?_⟩
  · rw [stripLeft]
    split
    · assumption
    · rw [scanUpTakeF_all pat str str.length 0
        (fun j _ hj2 => hpre j (by omega))]
      simp
  · rw [stripRight, scanDownDropF_none pat str str.length
      (fun i hi => hsuf i hi)]
    split <;> rfl
  · rw [stripLeftGreedy, scanDownTakeF_none pat str str.length
      (fun i hi => hpre i hi)]
    split <;> rfl
  · rw [stripRightGreedy]
    split
    · rfl
    · rw [scanUpDropF_all pat str str.length 0
        (fun j _ hj2 => hsuf j (by omega))]
      simp

/-- Claim C1, witness: subject `"hello"`, pattern `"x"`: no prefix and
no suffix length matches, `#` yields the empty string and the other
three strips leave the subject unchanged. -/
theorem claim_C1_witness :
    stripLeft [104, 101, 108, 108, 111] [120] = [] ∧
    stripRight [104, 101, 108, 108, 111] [120] = [104, 101, 108, 108, 111] ∧
    stripLeftGreedy [104, 101, 108, 108, 111] [120] =
      [104, 101, 108, 108, 111] ∧
    stripRightGreedy [104, 101, 108, 108, 111] [120] =
      [104, 101, 108, 108, 111] :=
  claim_C1 [104, 101, 108, 108, 111] [120] (by decide) (by decide)

/-! ### Decimal rendering of slice bounds (claims C7, C8, C10)

The slice claims quantify over expressions of the form
`":" + start + ":" + length`; `natDec`/`intDec` render the numbers in
decimal exactly as that concatenation does. -/

/-- Decimal digits of `n`, most significant first; the fuel dominates
the recursion depth and `n + 1` always suffices. -/
def natDecF : Nat → Nat → List Nat
  | 0, _ => []
  | fuel + 1, n =>
    if n < 10 then [48 + n] else natDecF fuel (n / 10) ++ [48 + n % 10]

/-- Decimal rendering of a natural number. -/
def natDec (n : Nat) : List Nat := natDecF (n + 1) n

/-- Decimal rendering of an integer, with a leading `-` when negative. -/
def intDec (i : Int) : List Nat :=
  if i < 0 then 45 :: natDec i.natAbs else natDec i.toNat

theorem digitsValF_append (xs ys : List Nat) :
    ∀ acc, digitsValF (xs ++ ys) acc =
      match digitsValF xs acc with
      | some a => digitsValF ys a
      | none => none := by
  induction xs with
  | nil => intro acc; rfl
  | cons d rest ih =>
    intro acc
    by_cases hd : 48 ≤ d ∧ d ≤ 57
    · simp [digitsValF, hd, ih]
    · simp [digitsValF, hd]

theorem natDecF_digits :
    ∀ fuel n, ∀ b ∈ natDecF fuel n, 48 ≤ b ∧ b ≤ 57 := by
  intro fuel
  induction fuel with
  | zero => intro n b hb; simp [natDecF] at hb
  | succ fuel ih =>
    intro n b hb
    rw [natDecF] at hb
    split at hb
    · rename_i h
      simp at hb
      omega
    · rename_i h
      rcases List.mem_append.1 hb with h1 | h1
      · exact ih _ b h1
      · simp at h1
        omega

theorem natDecF_ne_nil {fuel n : Nat} (h : n < fuel) : natDecF fuel n ≠ [] := by
  cases fuel with
  | zero => omega
  | succ fuel =>
    rw [natDecF]
    split
    · simp
    · simp

theorem natDecF_spec :
    ∀ n fuel, n < fuel → ∀ acc,
      digitsValF (natDecF fuel n) acc =
        some (acc * 10 ^ (natDecF fuel n).length + n) := by
  intro n
  induction n using Nat.strong_induction_on with
  | _ n ih =>
    intro fuel hf acc
    cases fuel with
    | zero => omega
    | succ fuel =>
      rw [natDecF]
      by_cases h10 : n < 10
      · simp only [if_pos h10]
        have hd0 : 48 ≤ 48 + n ∧ 48 + n ≤ 57 := by omega
        simp [digitsValF, hd0]
      · simp only [if_neg h10]
        have hlt : n / 10 < n := Nat.div_lt_self (by omega) (by omega)
        have hfu : n / 10 < fuel := by omega
        rw [digitsValF_append]
        rw [ih (n / 10) hlt fuel hfu acc]
        have hd : 48 ≤ 48 + n % 10 ∧ 48 + n % 10 ≤ 57 := by omega
        simp only [digitsValF, if_pos hd, List.length_append,
          List.length_cons, List.length_nil, Option.some.injEq]
        have h1 : 48 + n % 10 - 48 = n % 10 := by omega
        rw [h1, pow_succ, Nat.add_mul, mul_assoc]
        omega

theorem natDec_digits : ∀ b ∈ natDec n, 48 ≤ b ∧ b ≤ 57 :=
  fun b hb => natDecF_digits (n + 1) n b hb

theorem natDec_ne_nil (n : Nat) : natDec n ≠ [] := natDecF_ne_nil (Nat.lt_succ_self n)

theorem goAtoi_natDec (n : Nat) (h : (n : Int) ≤ 2 ^ 63 - 1) :
    goAtoi (natDec n) = some (n : Int) := by
  obtain ⟨c, rest, hc⟩ : ∃ c rest, natDec n = c :: rest := by
    cases hn : natDec n with
    | nil => exact absurd hn (natDec_ne_nil n)
    | cons c rest => exact ⟨c, rest, rfl⟩
  have hdig : 48 ≤ c ∧ c ≤ 57 := natDec_digits c (hc ▸ List.mem_cons_self c rest)
  have hval : digitsValF (c :: rest) 0 = some n := by
    have h0 := natDecF_spec n (n + 1) (Nat.lt_succ_self n) 0
    rw [show natDecF (n + 1) n = c :: rest from hc] at h0
    simpa using h0
  rw [hc]
  simp only [goAtoi]
  rw [if_neg (by omega : ¬ c = 43), if_neg (by omega : ¬ c = 45)]
  simp only [List.cons_ne_nil, if_false, hval]
  simp only [show (false = true) = False by simp, if_false]
  rw [if_neg (by omega : ¬ ((n : Int) < -(2 ^ 63) ∨ (2 ^ 63 - 1 : Int) < (n : Int)))]

theorem goAtoi_negDec (n : Nat) (h : (n : Int) ≤ 2 ^ 63) :
    goAtoi (45 :: natDec n) = some (-(n : Int)) := by
  have hval : digitsValF (natDec n) 0 = some n := by
    have h0 := natDecF_spec n (n + 1) (Nat.lt_succ_self n) 0
    simpa [natDec] using h0
  simp only [goAtoi]
  norm_num
  refine ⟨natDec_ne_nil n, ?_⟩
  rw [hval]
  have hr : ¬ ((9223372036854775808 : Nat) < n ∨
      (9223372036854775807 : Int) < -(n : Int)) := by omega
  simp [hr]

theorem intDec_ne_nil (i : Int) : intDec i ≠ [] := by
  rw [intDec]
  split <;> simp [natDec_ne_nil]

theorem intDec_ofNat (n : Nat) : intDec (n : Int) = natDec n := by
  rw [intDec, if_neg (by omega : ¬ ((n : Int) < 0))]
  simp

theorem goAtoi_intDec (l : Int) (hlo : -(2 ^ 63) ≤ l) (hhi : l ≤ 2 ^ 63 - 1) :
    goAtoi (intDec l) = some l := by
  rw [intDec]
  by_cases hneg : l < 0
  · rw [if_pos hneg, goAtoi_negDec l.natAbs (by omega)]
    congr 1
    omega
  · rw [if_neg hneg, goAtoi_natDec l.toNat (by omega)]
    congr 1
    omega

theorem findColonF_found (pattern : List Nat) (tgt : Nat) :
    ∀ k i, i ≤ tgt → tgt < i + k →
      (∀ j, i ≤ j → j < tgt → pattern.getD j 0 ≠ 58) →
      pattern.getD tgt 0 = 58 →
      findColonF pattern k i = tgt := by
  intro k
  induction k with
  | zero => intro i h1 h2 _ _; omega
  | succ k ih =>
    intro i h1 h2 h3 h4
    rw [findColonF]
    by_cases hi : i = tgt
    · subst hi
      rw [if_pos h4]
    · rw [if_neg (h3 i le_rfl (by omega))]
      exact ih (i + 1) (by omega) (by omega)
        (fun j hj hj2 => h3 j (by omega) hj2) h4

/-- Evaluation of the `:start:length` slice operator on a well-formed
decimal expression: the parsed start is the given `start` (assumed within
the subject), the end is `len + length` for negative and
`start + length` for non-negative `length`; an end below the start
panics with the bad-substitution message, an end beyond the subject
length hits an out-of-range slice, and otherwise the half-open slice is
returned. -/
theorem Subst_sliceExpr (str : List Nat) (start : Nat) (l : Int)
    (hs : (str.length : Int) ≤ 2 ^ 63 - 1)
    (hstart : start ≤ str.length)
    (hlo : -(2 ^ 63) ≤ l) (hhi : l ≤ 2 ^ 63 - 1) :
    Subst str (58 :: (natDec start ++ 58 :: intDec l)) =
      (if (if l < 0 then (str.length : Int) + l else (start : Int) + l) <
          (start : Int) then
        Outcome.badSubst (58 :: (natDec start ++ 58 :: intDec l))
      else if (str.length : Int) <
          (if l < 0 then (str.length : Int) + l else (start : Int) + l) then
        Outcome.sliceErr
      else
        Outcome.ok (goSlice str start
          (if l < 0 then (str.length : Int) + l
           else (start : Int) + l).toNat)) := by
  have hp1ne : natDec start ≠ [] := natDec_ne_nil start
  have hp1dig : ∀ b ∈ natDec start, 48 ≤ b ∧ b ≤ 57 := fun b hb =>
    natDec_digits b hb
  have hp2ne : intDec l ≠ [] := intDec_ne_nil l
  have hL : (58 :: (natDec start ++ 58 :: intDec l)).length =
      (natDec start).length + (intDec l).length + 2 := by
    simp only [List.length_cons, List.length_append]
    omega
  have h0 : ¬ ((58 :: (natDec start ++ 58 :: intDec l)).length = 0) := by
    rw [hL]; omega
  have h1 : ¬ ((58 :: (natDec start ++ 58 :: intDec l)).length = 1) := by
    rw [hL]; omega
  have hfind : findColonF (58 :: (natDec start ++ 58 :: intDec l))
      ((58 :: (natDec start ++ 58 :: intDec l)).length - 1) 1 =
      (natDec start).length + 1 := by
    apply findColonF_found
    · omega
    · rw [hL]; omega
    · intro j hj1 hj2
      obtain ⟨m, rfl⟩ : ∃ m, j = m + 1 := ⟨j - 1, by omega⟩
      have hm : m < (natDec start).length := by omega
      have hgd : (58 :: (natDec start ++ 58 :: intDec l)).getD (m + 1) 0 =
          (natDec start).getD m 0 := by
        simp only [List.getD_cons_succ]
        exact List.getD_append _ _ _ _ hm
      rw [hgd]
      have hmem : (natDec start).getD m 0 ∈ natDec start := by
        rw [List.getD_eq_getElem _ _ hm]
        exact List.getElem_mem hm
      have := hp1dig _ hmem
      omega
    · have hgd : (58 :: (natDec start ++ 58 :: intDec l)).getD
          ((natDec start).length + 1) 0 =
          (58 :: intDec l).getD 0 0 := by
        simp only [List.getD_cons_succ]
        rw [List.getD_append_right _ _ _ _ le_rfl]
        simp
      rw [hgd]
      rfl
  have hslice : goSlice (58 :: (natDec start ++ 58 :: intDec l)) 1
      ((natDec start).length + 1) = natDec start := by
    rw [goSlice, List.take_succ_cons, List.take_left]
    rfl
  have hdrop : (58 :: (natDec start ++ 58 :: intDec l)).drop
      ((natDec start).length + 1) = 58 :: intDec l := by
    rw [List.drop_succ_cons]
    exact List.drop_left _ _
  have hstartI : (start : Int) ≤ 2 ^ 63 - 1 :=
    le_trans (by exact_mod_cast hstart) hs
  have hstartO : ((goAtoi (natDec start)).map
      fun v => min (max v 0).toNat str.length) = some start := by
    rw [goAtoi_natDec start hstartI]
    simp only [Option.map_some']
    congr 1
    have hmax : max ((start : Nat) : Int) 0 = ((start : Nat) : Int) :=
      max_eq_left (by positivity)
    rw [hmax]
    omega
  have hcons58 : ¬ ((58 :: intDec l : List Nat) = [58]) := by
    simp [hp2ne]
  have hatoi2 : goAtoi (intDec l) = some l := goAtoi_intDec l hlo hhi
  simp only [Subst, List.headD_cons, if_neg h0, hfind, hslice, hdrop,
    if_neg hp1ne, if_neg h1, hstartO, if_neg hcons58, hatoi2,
    List.drop_succ_cons, List.drop_zero, Option.map_some']
  norm_num
  rw [if_neg (show ¬ (58 :: intDec l : List Nat) = [] by simp)]

/-- Claim C7: for `start ≤ end ≤ len(subject)` the slice expression
`":" + start + ":" + (end - start)` returns the half-open slice
`[start, end)` of the subject, whose length is exactly `end - start`. -/
theorem claim_C7 (s : List Nat) (start end_ : Nat)
    (h1 : start ≤ end_) (h2 : end_ ≤ s.length)
    (hs : (s.length : Int) ≤ 2 ^ 63 - 1) :
    Subst s (58 :: (natDec start ++ 58 :: natDec (end_ - start))) =
      Outcome.ok (goSlice s start end_) ∧
    (goSlice s start end_).length = end_ - start := by
  constructor
  · rw [show natDec (end_ - start) = intDec ((end_ - start : Nat) : Int) from
      (intDec_ofNat _).symm]
    rw [Subst_sliceExpr s start ((end_ - start : Nat) : Int) hs
      (le_trans h1 h2) (le_trans (by norm_num) (Int.natCast_nonneg _))
      (by omega)]
    rw [if_neg (by omega : ¬ (((end_ - start : Nat) : Int) < 0))]
    rw [if_neg (by omega :
      ¬ ((start : Int) + ((end_ - start : Nat) : Int) < (start : Int)))]
    rw [if_neg (by omega :
      ¬ ((s.length : Int) < (start : Int) + ((end_ - start : Nat) : Int)))]
    rw [show ((start : Int) + ((end_ - start : Nat) : Int)).toNat = end_ by
      omega]
  · simp only [goSlice, List.length_drop, List.length_take]
    omega

/-- Claim C7, witness: `substitute("hello", ":1:2") = "el"`, of length
`3 - 1 = 2`. -/
theorem claim_C7_witness :
    Subst [104, 101, 108, 108, 111] (58 :: (natDec 1 ++ 58 :: natDec 2)) =
      Outcome.ok (goSlice [104, 101, 108, 108, 111] 1 3) ∧
    (goSlice [104, 101, 108, 108, 111] 1 3).length = 3 - 1 :=
  claim_C7 [104, 101, 108, 108, 111] 1 3 (by decide) (by decide) (by decide)

/-- Claim C8: in a slice expression `":" + start + ":" + length` with
`start` within the subject, a negative `length` makes the end
`len(subject) + length` while a non-negative `length` makes it
`start + length`; whenever that end is below `start` the operation
fails with the malformed-substitution signal, and otherwise the
half-open window is returned (an end beyond the subject hits the
out-of-range slice panic). -/
theorem claim_C8 (str : List Nat) (start : Nat) (l : Int)
    (hs : (str.length : Int) ≤ 2 ^ 63 - 1)
    (hstart : start ≤ str.length)
    (hlo : -(2 ^ 63) ≤ l) (hhi : l ≤ 2 ^ 63 - 1) :
    Subst str (58 :: (natDec start ++ 58 :: intDec l)) =
      (if (if l < 0 then (str.length : Int) + l else (start : Int) + l) <
          (start : Int) then
        Outcome.badSubst (58 :: (natDec start ++ 58 :: intDec l))
      else if (str.length : Int) <
          (if l < 0 then (str.length : Int) + l else (start : Int) + l) then
        Outcome.sliceErr
      else
        Outcome.ok (goSlice str start
          (if l < 0 then (str.length : Int) + l
           else (start : Int) + l).toNat)) :=
  Subst_sliceExpr str start l hs hstart hlo hhi

/-- Claim C8, witness: `substitute("hello", ":2:-1") = "ll"` (end
`5 - 1 = 4`), and `substitute("hello", ":2:-10")` fails with the
malformed-substitution signal (end `5 - 10 < 2`). -/
theorem claim_C8_witness :
    Subst [104, 101, 108, 108, 111] (58 :: (natDec 2 ++ 58 :: intDec (-1))) =
      Outcome.ok [108, 108] ∧
    Subst [104, 101, 108, 108, 111] (58 :: (natDec 2 ++ 58 :: intDec (-10))) =
      Outcome.badSubst (58 :: (natDec 2 ++ 58 :: intDec (-10))) := by
  constructor
  · rw [claim_C8 [104, 101, 108, 108, 111] 2 (-1) (by decide) (by decide)
      (by decide) (by decide)]
    decide
  · rw [claim_C8 [104, 101, 108, 108, 111] 2 (-10) (by decide) (by decide)
      (by decide) (by decide)]
    decide

/-- Claim C10 (amended): with a non-negative length and an in-range
start, the computed end `start + length` is not clamped: whenever
`start + length > len(subject)` the operation crashes with the
out-of-range slice panic (a parsed start beyond the subject is first
clamped to the subject length, which is why an out-of-range `start`
alone does not crash). -/
theorem claim_C10 (s : List Nat) (start l : Nat)
    (hstart : start ≤ s.length) (hover : s.length < start + l)
    (hs : (s.length : Int) ≤ 2 ^ 63 - 1) (hl : (l : Int) ≤ 2 ^ 63 - 1) :
    Subst s (58 :: (natDec start ++ 58 :: natDec l)) = Outcome.sliceErr := by
  rw [show natDec l = intDec ((l : Nat) : Int) from (intDec_ofNat _).symm]
  rw [Subst_sliceExpr s start ((l : Nat) : Int) hs hstart
    (le_trans (by norm_num) (Int.natCast_nonneg _)) hl]
  rw [if_neg (by omega : ¬ (((l : Nat) : Int) < 0))]
  rw [if_neg (by omega :
    ¬ ((start : Int) + ((l : Nat) : Int) < (start : Int)))]
  rw [if_pos (by omega :
    (s.length : Int) < (start : Int) + ((l : Nat) : Int))]

/-- Claim C10, witness: `Subst("hello", ":0:10")` crashes with the
out-of-range slice panic. -/
theorem claim_C10_witness :
    Subst [104, 101, 108, 108, 111] (58 :: (natDec 0 ++ 58 :: natDec 10)) =
      Outcome.sliceErr :=
  claim_C10 [104, 101, 108, 108, 111] 0 10 (by decide) (by decide)
    (by decide) (by decide)

/-! ### The greedy infix find of `subst` for patterns containing `*`
(claim C3) -/

theorem globScanF_eq_some (pat str : List Nat) (s0 e0 : Nat)
    (hse : s0 ≤ e0)
    (hmatch : filepathMatch pat (goSlice str s0 e0) = true) :
    ∀ k, e0 ≤ s0 + k →
      (∀ e, e0 < e → e ≤ s0 + k →
        filepathMatch pat (goSlice str s0 e) = false) →
      globScanF pat str s0 k = some e0 := by
  intro k
  induction k with
  | zero =>
    intro hb _
    have he : e0 = s0 := by omega
    subst he
    rw [globScanF, if_pos hmatch]
  | succ k ih =>
    intro hb hlong
    rw [globScanF]
    by_cases he : e0 = s0 + k + 1
    · subst he
      rw [if_pos hmatch]
    · rw [hlong (s0 + k + 1) (by omega) (by omega), if_neg (by simp)]
      exact ih (by omega) fun e h1 h2 => hlong e h1 (by omega)

theorem globScanF_eq_none (pat str : List Nat) (s0 : Nat) :
    ∀ k, (∀ e, s0 ≤ e → e ≤ s0 + k →
        filepathMatch pat (goSlice str s0 e) = false) →
      globScanF pat str s0 k = none := by
  intro k
  induction k with
  | zero =>
    intro h
    rw [globScanF, h s0 le_rfl (by omega), if_neg (by simp)]
  | succ k ih =>
    intro h
    rw [globScanF, h (s0 + k + 1) (by omega) (by omega), if_neg (by simp)]
    exact ih fun e h1 h2 => h e h1 (by omega)

theorem globLoopF_found (pat repl str : List Nat) (s0 e0 : Nat)
    (hs0 : s0 < str.length) (hse : s0 ≤ e0) (he0 : e0 ≤ str.length)
    (hmatch : filepathMatch pat (goSlice str s0 e0) = true)
    (hlong : ∀ e, e0 < e → e ≤ str.length →
      filepathMatch pat (goSlice str s0 e) = false)
    (hfirst : ∀ s' e, s' < s0 → s' ≤ e → e ≤ str.length →
      filepathMatch pat (goSlice str s' e) = false) :
    ∀ d start acc, start + d = s0 →
      globLoopF pat repl str (str.length - start) start acc =
        (acc ++ (str.take s0).drop start ++ repl, str.drop e0) := by
  intro d
  induction d with
  | zero =>
    intro start acc h0
    have hstart : start = s0 := by omega
    subst hstart
    obtain ⟨m, hm⟩ : ∃ m, str.length - start = m + 1 :=
      ⟨str.length - start - 1, by omega⟩
    rw [hm, globLoopF]
    have hscan : globScanF pat str start (str.length - start) = some e0 :=
      globScanF_eq_some pat str start e0 hse hmatch (str.length - start)
        (by omega) (fun e h1 h2 => hlong e h1 (by omega))
    rw [hscan]
    have hnil : (str.take start).drop start = [] :=
      List.drop_eq_nil_of_le (by simp)
    rw [hnil]
    simp
  | succ d ih =>
    intro start acc h0
    obtain ⟨m, hm⟩ : ∃ m, str.length - start = m + 1 :=
      ⟨str.length - start - 1, by omega⟩
    rw [hm, globLoopF]
    have hscan : globScanF pat str start (str.length - start) = none :=
      globScanF_eq_none pat str start (str.length - start)
        (fun e h1 h2 => hfirst start e (by omega) h1 (by omega))
    rw [hscan]
    have hm2 : m = str.length - (start + 1) := by omega
    rw [hm2, ih (start + 1) (acc ++ [str.getD start 0]) (by omega)]
    have hlt : start < (str.take s0).length := by simp; omega
    have hcons : (str.take s0).drop start =
        str.getD start 0 :: (str.take s0).drop (start + 1) := by
      rw [List.drop_eq_getElem_cons hlt]
      congr 1
      rw [List.getElem_take]
      exact (List.getD_eq_getElem str 0 (by omega)).symm
    rw [hcons]
    simp

theorem findSlashF_found (pattern : List Nat) (tgt : Nat) :
    ∀ k i, i ≤ tgt → tgt < i + k →
      (∀ j, i ≤ j → j < tgt →
        ¬(pattern.getD j 0 = 47 ∧ pattern.getD (j - 1) 0 ≠ 92)) →
      (pattern.getD tgt 0 = 47 ∧ pattern.getD (tgt - 1) 0 ≠ 92) →
      findSlashF pattern k i = tgt := by
  intro k
  induction k with
  | zero => intro i h1 h2 _ _; omega
  | succ k ih =>
    intro i h1 h2 h3 h4
    rw [findSlashF]
    by_cases hi : i = tgt
    · subst hi
      rw [if_pos h4]
    · rw [if_neg (h3 i le_rfl (by omega))]
      exact ih (i + 1) (by omega) (by omega)
        (fun j hj hj2 => h3 j (by omega) hj2) h4

theorem findSlashF_all (pattern : List Nat) :
    ∀ k i, (∀ j, i ≤ j → j < i + k →
        ¬(pattern.getD j 0 = 47 ∧ pattern.getD (j - 1) 0 ≠ 92)) →
      findSlashF pattern k i = i + k := by
  intro k
  induction k with
  | zero => intro i _; simp [findSlashF]
  | succ k ih =>
    intro i h
    rw [findSlashF, if_neg (h i le_rfl (by omega))]
    have := ih (i + 1) fun j hj hj2 => h j (by omega) (by omega)
    omega

/-- Claim C3: for single replacement `/` with a pattern containing `*`,
the driver scans start positions ascending and, at the first start
position `s0` admitting any match, takes the longest end `e0`
(descending from the subject length); the bytes before `s0` are copied
verbatim, the replacement is spliced in, and the tail from `e0` follows
unchanged.  Stated both for the driver `subst` and for the full
expressions `"/pat/repl"` and `"/pat"` (in particular, with
`str = "hello"`, `pat = "l*l"`, `repl = ""`, `s0 = 2`, `e0 = 4` this
gives `substitute("hello", "/l*l") = "heo"`). -/
theorem claim_C3 (str pat repl : List Nat) (s0 e0 : Nat)
    (hglob : pat.contains 42 = true)
    (hp47 : pat.contains 47 = false) (hp92 : pat.contains 92 = false)
    (hs0 : s0 < str.length) (hse : s0 ≤ e0) (he0 : e0 ≤ str.length)
    (hmatch : filepathMatch pat (goSlice str s0 e0) = true)
    (hlong : ∀ e, e ≤ str.length → e0 < e →
      filepathMatch pat (goSlice str s0 e) = false)
    (hfirst : ∀ s', s' < s0 → ∀ e, e ≤ str.length → s' ≤ e →
      filepathMatch pat (goSlice str s' e) = false) :
    subst str pat repl = (str.take s0 ++ repl, str.drop e0) ∧
    Subst str (47 :: (pat ++ 47 :: repl)) =
      Outcome.ok (str.take s0 ++ repl ++ str.drop e0) ∧
    Subst str (47 :: pat) = Outcome.ok (str.take s0 ++ str.drop e0) := by
  have hpne : pat ≠ [] := by
    intro h
    rw [h] at hglob
    simp [List.contains] at hglob
  have h47m : (47 : Nat) ∉ pat := by simpa using hp47
  have h92m : (92 : Nat) ∉ pat := by simpa using hp92
  have hsubstAny : ∀ r : List Nat,
      subst str pat r = (str.take s0 ++ r, str.drop e0) := by
    intro r
    rw [subst, hglob, if_pos rfl]
    have := globLoopF_found pat r str s0 e0 hs0 hse he0 hmatch
      (fun e h1 h2 => hlong e h2 h1)
      (fun s' e h1 h2 h3 => hfirst s' h1 e h3 h2) s0 0 [] (by omega)
    rw [Nat.sub_zero] at this
    rw [this]
    simp
  have hsubst : subst str pat repl = (str.take s0 ++ repl, str.drop e0) :=
    hsubstAny repl
  have hplen : 0 < pat.length := List.length_pos.2 hpne
  have hmem_ne : ∀ m, m < pat.length → pat.getD m 0 ≠ 47 ∧ pat.getD m 0 ≠ 92 := by
    intro m hm
    have hmem : pat.getD m 0 ∈ pat := by
      rw [List.getD_eq_getElem _ _ hm]
      exact List.getElem_mem hm
    exact ⟨fun hq => h47m (hq ▸ hmem), fun hq => h92m (hq ▸ hmem)⟩
  refine ⟨hsubst, ?_, ?_⟩
  · have hlen : (47 :: (pat ++ 47 :: repl)).length =
        pat.length + repl.length + 2 := by
      simp only [List.length_cons, List.length_append]
      omega
    have hgd1 : (47 :: (pat ++ 47 :: repl)).getD 1 0 ≠ 47 := by
      have h1 : (47 :: (pat ++ 47 :: repl)).getD 1 0 = pat.getD 0 0 := by
        simp only [List.getD_cons_succ]
        exact List.getD_append _ _ _ _ hplen
      rw [h1]
      exact (hmem_ne 0 hplen).1
    have hskip : ¬(1 < (47 :: (pat ++ 47 :: repl)).length ∧
        (47 :: (pat ++ 47 :: repl)).getD 1 0 = 47) := fun h => hgd1 h.2
    have hfind : findSlashF (47 :: (pat ++ 47 :: repl))
        ((47 :: (pat ++ 47 :: repl)).length - 1) 1 = pat.length + 1 := by
      apply findSlashF_found
      · omega
      · rw [hlen]; omega
      · intro jj hj1 hj2
        obtain ⟨m, rfl⟩ : ∃ m, jj = m + 1 := ⟨jj - 1, by omega⟩
        have hm : m < pat.length := by omega
        intro hcond
        have hgm : (47 :: (pat ++ 47 :: repl)).getD (m + 1) 0 = pat.getD m 0 := by
          simp only [List.getD_cons_succ]
          exact List.getD_append _ _ _ _ hm
        exact (hmem_ne m hm).1 (by rw [← hgm]; exact hcond.1)
      · constructor
        · have h2 : (47 :: (pat ++ 47 :: repl)).getD (pat.length + 1) 0 =
              (47 :: repl).getD 0 0 := by
            simp only [List.getD_cons_succ]
            rw [List.getD_append_right _ _ _ _ le_rfl]
            simp
          rw [h2]
          rfl
        · have he : pat.length + 1 - 1 = pat.length := by omega
          rw [he]
          obtain ⟨m, hm2⟩ : ∃ m, pat.length = m + 1 := ⟨pat.length - 1, by omega⟩
          have hmlt : m < pat.length := by omega
          have h3 : (47 :: (pat ++ 47 :: repl)).getD pat.length 0 =
              pat.getD m 0 := by
            rw [hm2]
            simp only [List.getD_cons_succ]
            exact List.getD_append _ _ _ _ hmlt
          rw [h3]
          exact (hmem_ne m hmlt).2
    have hij : ¬(pat.length + 1 = (47 :: (pat ++ 47 :: repl)).length) := by
      rw [hlen]; omega
    have hgoslice : goSlice (47 :: (pat ++ 47 :: repl)) 1 (pat.length + 1) =
        pat := by
      rw [goSlice, List.take_succ_cons, List.take_left]
      rfl
    have hdrop2 : (47 :: (pat ++ 47 :: repl)).drop (pat.length + 1 + 1) =
        repl := by
      rw [List.drop_succ_cons, List.drop_append 1]
      rfl
    simp only [Subst, List.headD_cons, if_neg hskip, hfind, if_neg hij,
      hgoslice, hdrop2, hsubst]
    norm_num [List.append_assoc]
  · have hlen : (47 :: pat).length = pat.length + 1 := by simp
    have hgd1 : (47 :: pat).getD 1 0 ≠ 47 := by
      have h1 : (47 :: pat).getD 1 0 = pat.getD 0 0 := by
        simp only [List.getD_cons_succ]
      rw [h1]
      exact (hmem_ne 0 hplen).1
    have hskip : ¬(1 < (47 :: pat).length ∧ (47 :: pat).getD 1 0 = 47) :=
      fun h => hgd1 h.2
    have hfind : findSlashF (47 :: pat) ((47 :: pat).length - 1) 1 =
        (47 :: pat).length := by
      have h4 := findSlashF_all (47 :: pat) ((47 :: pat).length - 1) 1 ?_
      · rw [h4, hlen]
        omega
      · intro jj hj1 hj2
        rw [hlen] at hj2
        obtain ⟨m, rfl⟩ : ∃ m, jj = m + 1 := ⟨jj - 1, by omega⟩
        have hm : m < pat.length := by omega
        intro hcond
        have hgm : (47 :: pat).getD (m + 1) 0 = pat.getD m 0 := by
          simp only [List.getD_cons_succ]
        exact (hmem_ne m hm).1 (by rw [← hgm]; exact hcond.1)
    have hgoslice : goSlice (47 :: pat) 1 ((47 :: pat).length) = pat := by
      rw [goSlice, List.take_length]
      rfl
    have hdropall : (47 :: pat).drop ((47 :: pat).length) = [] :=
      List.drop_length _
    simp only [Subst, List.headD_cons, if_neg hskip, hfind, if_pos rfl,
      hgoslice, hdropall]
    norm_num
    rw [hsubstAny []]
    simp

/-- Claim C3, witness: with subject `"hello"` and pattern `"l*l"` the
first start position with a match is `2`, the longest end there is `4`,
and `substitute("hello", "/l*l") = "heo"`. -/
theorem claim_C3_witness :
    Subst [104, 101, 108, 108, 111] [47, 108, 42, 108] =
      Outcome.ok [104, 101, 111] :=
  (claim_C3 [104, 101, 108, 108, 111] [108, 42, 108] [] 2 4
    (by decide) (by decide) (by decide) (by decide) (by decide) (by decide)
    (by decide) (by decide) (by decide)).2.2

/-! ### Structure of `scanChunk` and a one-step unfolding of the
matcher -/

theorem scanBody_append (p : List Nat) (inr : Bool) :
    (scanBody p inr).1 ++ (scanBody p inr).2 = p := by
  induction p, inr using scanBody.induct <;> simp [scanBody] <;> simp_all

theorem scanBody_nil_chunk (p : List Nat) (inr : Bool)
    (h : (scanBody p inr).1 = []) :
    p = [] ∨ (inr = false ∧ ∃ q, p = 42 :: q) := by
  induction p, inr using scanBody.induct <;> simp [scanBody] at h ⊢
  case case7 => simp_all

theorem scanChunkGo_star (star0 : Bool) (p : List Nat) :
    (scanChunkGo star0 p).1 = (star0 || (p.headD 0 == 42)) := by
  induction star0, p using scanChunkGo.induct
  case case1 star rest ih =>
    rw [scanChunkGo, ih]
    simp
  case case2 star p h =>
    rw [scanChunkGo.eq_2 star p h]
    have : (p.headD 0 == 42) = false := by
      cases p with
      | nil => rfl
      | cons b q =>
        simp only [List.headD_cons, beq_eq_false_iff_ne, ne_eq]
        intro hb
        exact h q (by rw [hb])
    rw [this]
    simp

theorem scanChunkGo_nil (star0 : Bool) (p : List Nat)
    (h : (scanChunkGo star0 p).2.1 = []) :
    (scanChunkGo star0 p).2.2 = [] ∧
      (p = [] ∨ (scanChunkGo star0 p).1 = true) := by
  induction star0, p using scanChunkGo.induct
  case case1 star rest ih =>
    rw [scanChunkGo] at h ⊢
    refine ⟨(ih h).1, Or.inr ?_⟩
    rw [scanChunkGo_star]
    simp
  case case2 star p hne =>
    rw [scanChunkGo.eq_2 star p hne] at h ⊢
    simp only at h ⊢
    rcases scanBody_nil_chunk p false h with hp | ⟨-, q, hq⟩
    · subst hp
      exact ⟨rfl, Or.inl rfl⟩
    · exact absurd hq (fun hh => hne q hh)

theorem scanChunkGo_rest (star0 : Bool) (p : List Nat) :
    (scanChunkGo star0 p).2.2.length ≤ p.length ∧
      (p ≠ [] → (scanChunkGo star0 p).2.2.length < p.length) := by
  induction star0, p using scanChunkGo.induct
  case case1 star rest ih =>
    rw [scanChunkGo]
    refine ⟨le_trans ih.1 (by simp), fun _ => lt_of_le_of_lt ih.1 (by simp)⟩
  case case2 star p hne =>
    rw [scanChunkGo.eq_2 star p hne]
    simp only
    have happ : (scanBody p false).1.length + (scanBody p false).2.length =
        p.length := by
      have h5 := congrArg List.length (scanBody_append p false)
      simpa using h5
    refine ⟨by omega, fun hp => ?_⟩
    have hchunk : (scanBody p false).1 ≠ [] := by
      intro hc
      rcases scanBody_nil_chunk p false hc with h1 | ⟨-, q, hq⟩
      · exact hp h1
      · exact hne q hq
    have : 0 < (scanBody p false).1.length := List.length_pos.2 hchunk
    omega

theorem scanChunk_rest_lt {p : List Nat} (hp : p ≠ []) :
    (scanChunk p).2.2.length < p.length :=
  (scanChunkGo_rest false p).2 hp

theorem scanChunk_nil {p : List Nat} (hp : p ≠ [])
    (h : (scanChunk p).2.1 = []) : scanChunk p = (true, [], []) := by
  have h2 := scanChunkGo_nil false p h
  rcases h2.2 with h3 | h3
  · exact absurd h3 hp
  · rw [scanChunk] at h ⊢
    exact Prod.ext h3 (Prod.ext h h2.1)

theorem matchF_fuel : ∀ (n : Nat) (p : List Nat), p.length ≤ n →
    ∀ nm f1 f2, p.length < f1 → p.length < f2 →
    matchF f1 p nm = matchF f2 p nm := by
  intro n
  induction n with
  | zero =>
    intro p hp nm f1 f2 _ _
    have hnil : p = [] := List.length_eq_zero.1 (by omega)
    subst hnil
    cases f1 <;> cases f2 <;> rfl
  | succ n ih =>
    intro p hp nm f1 f2 h1 h2
    cases p with
    | nil => cases f1 <;> cases f2 <;> rfl
    | cons b pb =>
      obtain ⟨g1, rfl⟩ : ∃ g, f1 = g + 1 := ⟨f1 - 1, by omega⟩
      obtain ⟨g2, rfl⟩ : ∃ g, f2 = g + 1 := ⟨f2 - 1, by omega⟩
      rcases hsc : scanChunk (b :: pb) with ⟨star, chunk, rest⟩
      have hrest : rest.length < (b :: pb).length := by
        have hq := scanChunk_rest_lt (p := b :: pb) (by simp)
        rw [hsc] at hq
        exact hq
      have hrn : rest.length ≤ n := by
        simp only [List.length_cons] at hrest hp
        omega
      simp only [matchF, hsc]
      by_cases hse : star = true ∧ chunk = []
      · simp [hse]
      · simp only [if_neg hse]
        rcases hmc : matchChunk chunk nm with _ | _ | t
        · simp [hmc]
        · simp only [hmc]
          by_cases hst : star = true
          · simp only [if_pos hst]
            rcases hsl : starLoopF chunk rest.isEmpty nm with _ | _ | t1
            · simp [hsl]
            · simp [hsl]
            · simp only [hsl]
              exact ih rest hrn t1 g1 g2 (by omega) (by omega)
          · simp [hst]
        · simp only [hmc]
          by_cases ht : t = [] ∨ rest ≠ []
          · simp only [if_pos ht]
            exact ih rest hrn t g1 g2 (by omega) (by omega)
          · simp only [if_neg ht]
            by_cases hst : star = true
            · simp only [if_pos hst]
              rcases hsl : starLoopF chunk rest.isEmpty nm with _ | _ | t1
              · simp [hsl]
              · simp [hsl]
              · simp only [hsl]
                exact ih rest hrn t1 g1 g2 (by omega) (by omega)
            · simp [hst]

/-- One-step unfolding of `filepath.Match` on a non-empty pattern, with
the fuel plumbing hidden. -/
theorem filepathMatch_cons (b : Nat) (pb nm : List Nat) (star : Bool)
    (chunk rest : List Nat) (hsc : scanChunk (b :: pb) = (star, chunk, rest)) :
    filepathMatch (b :: pb) nm =
      if star = true ∧ chunk = [] then !(nm.contains 47)
      else
        (match matchChunk chunk nm with
         | .ok t =>
           if t = [] ∨ rest ≠ [] then filepathMatch rest t
           else if star = true then
             (match starLoopF chunk rest.isEmpty nm with
              | .found t1 => filepathMatch rest t1
              | _ => false)
           else false
         | .err => false
         | .nomatch =>
           if star = true then
             (match starLoopF chunk rest.isEmpty nm with
              | .found t1 => filepathMatch rest t1
              | _ => false)
           else false) := by
  have hrest : rest.length < (b :: pb).length := by
    have hq := scanChunk_rest_lt (p := b :: pb) (by simp)
    rw [hsc] at hq
    exact hq
  have hfix : ∀ t : List Nat,
      matchF ((b :: pb).length) rest t = filepathMatch rest t := by
    intro t
    exact matchF_fuel rest.length rest le_rfl t _ _
      (by simp only [List.length_cons] at hrest ⊢; omega)
      (Nat.lt_succ_self _)
  rw [filepathMatch]
  simp only [List.length_cons, matchF, hsc]
  by_cases hse : star = true ∧ chunk = []
  · simp [hse]
  · simp only [if_neg hse]
    rcases hmc : matchChunk chunk nm with _ | _ | t
    · simp [hmc]
    · simp only [hmc]
      by_cases hst : star = true
      · simp only [if_pos hst]
        rcases hsl : starLoopF chunk rest.isEmpty nm with _ | _ | t1
        · simp [hsl]
        · simp [hsl]
        · simp only [hsl]
          have := hfix t1
          simp only [List.length_cons] at this
          exact this
      · simp [hst]
    · simp only [hmc]
      by_cases ht : t = [] ∨ rest ≠ []
      · simp only [if_pos ht]
        have := hfix t
        simp only [List.length_cons] at this
        exact this
      · simp only [if_neg ht]
        by_cases hst : star = true
        · simp only [if_pos hst]
          rcases hsl : starLoopF chunk rest.isEmpty nm with _ | _ | t1
          · simp [hsl]
          · simp [hsl]
          · simp only [hsl]
            have := hfix t1
            simp only [List.length_cons] at this
            exact this
        · simp [hst]

/-! ### Matching against the empty name (claim C9) -/

theorem matchChunkF_failed : ∀ (fuel : Nat) (chunk s t : List Nat),
    matchChunkF fuel true chunk s ≠ .ok t := by
  intro fuel
  induction fuel with
  | zero =>
    intro chunk s t h
    cases chunk with
    | nil => simp [matchChunkF] at h
    | cons c crest => simp [matchChunkF] at h
  | succ fuel ih =>
    intro chunk s t h
    cases chunk with
    | nil => simp [matchChunkF] at h
    | cons c crest =>
      simp only [matchChunkF, Bool.true_or] at h
      by_cases hc : c = 91
      · simp only [if_pos hc, if_true] at h
        split at h
        · exact MRes.noConfusion h
        · rename_i m chunk2 heq
          have hone : (∀ (x : Bool), (if m = x then true else true) = true) :=
            fun x => by split <;> rfl
          rw [hone] at h
          exact ih chunk2 _ t h
      · simp only [if_neg hc] at h
        by_cases hq : c = 63
        · simp only [if_pos hq, if_true] at h
          exact ih crest s t h
        · simp only [if_neg hq] at h
          by_cases hb : c = 92
          · simp only [if_pos hb] at h
            cases crest with
            | nil => exact MRes.noConfusion h
            | cons e crest2 =>
              simp only [if_true] at h
              exact ih crest2 s t h
          · simp only [if_neg hb, if_true] at h
            exact ih crest s t h

theorem matchChunk_nil_no_ok (c : Nat) (crest : List Nat) (t : List Nat) :
    matchChunk (c :: crest) [] ≠ .ok t := by
  intro h
  rw [matchChunk] at h
  have heq : matchChunkF ((c :: crest).length + 1) false (c :: crest) [] =
      matchChunkF ((c :: crest).length + 1) true (c :: crest) [] := by
    simp only [List.length_cons, matchChunkF, List.isEmpty_nil,
      Bool.or_true, Bool.true_or]
  rw [heq] at h
  exact matchChunkF_failed ((c :: crest).length + 1) (c :: crest) [] t h

/-- A pattern that matches the empty name consists only of `*`s, and
such a pattern matches any name that contains no separator. -/
theorem matchEmpty_all {pat : List Nat} (hp : pat ≠ [])
    (hnil : filepathMatch pat [] = true) :
    ∀ s, s.contains 47 = false → filepathMatch pat s = true := by
  obtain ⟨b, pb, rfl⟩ : ∃ b pb, pat = b :: pb := by
    cases pat with
    | nil => exact absurd rfl hp
    | cons b pb => exact ⟨b, pb, rfl⟩
  rcases hsc : scanChunk (b :: pb) with ⟨star, chunk, rest⟩
  have hchunk : chunk = [] := by
    by_contra hch
    obtain ⟨c, crest, rfl⟩ : ∃ c crest, chunk = c :: crest := by
      cases chunk with
      | nil => exact absurd rfl hch
      | cons c crest => exact ⟨c, crest, rfl⟩
    rw [filepathMatch_cons b pb [] star (c :: crest) rest hsc] at hnil
    rw [if_neg (by simp)] at hnil
    rcases hmc : matchChunk (c :: crest) [] with - | - | t
    · rw [hmc] at hnil
      exact Bool.noConfusion hnil
    · rw [hmc] at hnil
      have hsl : starLoopF (c :: crest) rest.isEmpty [] = .exhausted := rfl
      rw [hsl] at hnil
      by_cases hst : star = true <;> simp [hst] at hnil
    · exact matchChunk_nil_no_ok c crest t hmc
  subst hchunk
  have hscc : scanChunk (b :: pb) = (true, [], []) :=
    scanChunk_nil (by simp) (by rw [hsc])
  intro s hs
  rw [filepathMatch_cons b pb s true [] [] hscc, if_pos ⟨rfl, rfl⟩, hs]
  rfl

theorem goSlice_self (s : List Nat) (a : Nat) : goSlice s a a = [] := by
  apply List.drop_eq_nil_of_le
  simp

theorem globScanF_some (pat str : List Nat) (start : Nat) :
    ∀ k i, globScanF pat str start k = some i →
      start ≤ i ∧ filepathMatch pat (goSlice str start i) = true := by
  intro k
  induction k with
  | zero =>
    intro i h
    rw [globScanF] at h
    split at h
    · rename_i hm
      obtain rfl : start = i := by injection h
      exact ⟨le_rfl, hm⟩
    · exact Option.noConfusion h
  | succ k ih =>
    intro i h
    rw [globScanF] at h
    split at h
    · rename_i hm
      obtain rfl : start + k + 1 = i := by injection h
      exact ⟨by omega, hm⟩
    · exact ih i h

theorem exactScanF_some (pat str : List Nat) (start : Nat) :
    ∀ k i0 i, exactScanF pat str start k i0 = some i → i0 ≤ i := by
  intro k
  induction k with
  | zero => intro i0 i h; exact Option.noConfusion h
  | succ k ih =>
    intro i0 i h
    rw [exactScanF] at h
    split at h
    · obtain rfl : i0 = i := by injection h
      exact le_rfl
    · have := ih (i0 + 1) i h
      omega

theorem globLoopF_left (pat repl str : List Nat)
    (hA : filepathMatch pat [] = false) :
    ∀ k start acc, (globLoopF pat repl str k start acc).2 = [] ∨
      ∃ i, 1 ≤ i ∧ (globLoopF pat repl str k start acc).2 = str.drop i := by
  intro k
  induction k with
  | zero => intro start acc; left; rfl
  | succ k ih =>
    intro start acc
    rw [globLoopF]
    rcases hscan : globScanF pat str start (str.length - start) with - | i
    · exact ih (start + 1) (acc ++ [str.getD start 0])
    · obtain ⟨hsi, hmi⟩ := globScanF_some pat str start _ i hscan
      right
      refine ⟨i, ?_, rfl⟩
      rcases Nat.eq_zero_or_pos i with hz | hpos
      · subst hz
        obtain rfl : start = 0 := by omega
        rw [goSlice_self] at hmi
        rw [hmi] at hA
        exact Bool.noConfusion hA
      · exact hpos

theorem exactLoopF_left (pat repl str : List Nat) :
    ∀ k start acc, (exactLoopF pat repl str k start acc).2 = [] ∨
      ∃ i, 1 ≤ i ∧ (exactLoopF pat repl str k start acc).2 = str.drop i := by
  intro k
  induction k with
  | zero => intro start acc; left; rfl
  | succ k ih =>
    intro start acc
    rw [exactLoopF]
    rcases hscan : exactScanF pat str start (str.length - start) (start + 1)
      with - | i
    · exact ih (start + 1) (acc ++ [str.getD start 0])
    · have := exactScanF_some pat str start _ _ i hscan
      exact Or.inr ⟨i, by omega, rfl⟩

theorem subst_round (str pat repl : List Nat)
    (h : pat.contains 42 = false ∨ filepathMatch pat [] = false ∨
      str.contains 47 = false) :
    (subst str pat repl).2 = [] ∨
      ∃ i, 1 ≤ i ∧ (subst str pat repl).2 = str.drop i := by
  by_cases hg : pat.contains 42 = true
  · rw [subst]
    simp only [hg, if_true]
    by_cases hA : filepathMatch pat [] = false
    · exact globLoopF_left pat repl str hA str.length 0 []
    · have hnil : filepathMatch pat [] = true := by
        cases hq : filepathMatch pat [] with
        | false => exact absurd hq hA
        | true => rfl
      have hp : pat ≠ [] := by
        intro hq
        rw [hq] at hg
        simp [List.contains] at hg
      have h47 : str.contains 47 = false := by
        rcases h with h1 | h1 | h1
        · exact absurd hg (by rw [h1]; simp)
        · exact absurd h1 hA
        · exact h1
      cases hstr : str with
      | nil => left; rfl
      | cons c cs =>
        obtain ⟨m, hm⟩ : ∃ m, (c :: cs).length = m + 1 := ⟨cs.length, by simp⟩
        rw [hm, globLoopF]
        have hall : filepathMatch pat (goSlice (c :: cs) 0 (0 + m + 1)) =
            true := by
          have hslice : goSlice (c :: cs) 0 (0 + m + 1) = c :: cs := by
            rw [goSlice]
            have : 0 + m + 1 = (c :: cs).length := by omega
            rw [this, List.take_length]
            rfl
          rw [hslice]
          exact matchEmpty_all hp hnil (c :: cs) (by rw [← hstr]; exact h47)
        have hscan : globScanF pat (c :: cs) 0 ((c :: cs).length - 0) =
            some (0 + m + 1) := by
          have hk : (c :: cs).length - 0 = m + 1 := by omega
          rw [hk, globScanF, if_pos hall]
        rw [hscan]
        right
        exact ⟨0 + m + 1, by omega, rfl⟩
  · rw [subst]
    have hgf : pat.contains 42 = false := by
      cases hq : pat.contains 42 with
      | false => rfl
      | true => exact absurd hq hg
    simp only [hgf, Bool.false_eq_true, if_false]
    by_cases hp : pat = []
    · simp only [if_pos hp]
      left
      simp
    · simp only [if_neg hp]
      exact exactLoopF_left pat repl str str.length 0 []

theorem substAllF_isSome (pat repl : List Nat)
    (hpat : pat.contains 42 = false ∨ filepathMatch pat [] = false) :
    ∀ fuel str acc, str.length < fuel →
      (substAllF pat repl fuel str acc).isSome = true := by
  intro fuel
  induction fuel with
  | zero => intro str acc h; omega
  | succ fuel ih =>
    intro str acc hlt
    rw [substAllF]
    rcases subst_round str pat repl (by tauto) with hz | ⟨i, hi1, hi2⟩
    · rw [hz]
      simp
    · by_cases hz : (subst str pat repl).2 = []
      · rw [hz]
        simp
      · rw [if_neg hz]
        apply ih
        rw [hi2]
        have hne : str ≠ [] := by
          intro hq
          apply hz
          rw [hi2, hq]
          simp
        have : 0 < str.length := List.length_pos.2 hne
        simp only [List.length_drop]
        omega

theorem substAllF_isSome47 (pat repl : List Nat) :
    ∀ fuel str acc, str.length < fuel → str.contains 47 = false →
      (substAllF pat repl fuel str acc).isSome = true := by
  intro fuel
  induction fuel with
  | zero => intro str acc h _; omega
  | succ fuel ih =>
    intro str acc hlt h47
    rw [substAllF]
    rcases subst_round str pat repl (Or.inr (Or.inr h47)) with hz | ⟨i, hi1, hi2⟩
    · rw [hz]
      simp
    · by_cases hz : (subst str pat repl).2 = []
      · rw [hz]
        simp
      · rw [if_neg hz]
        apply ih
        · rw [hi2]
          have hne : str ≠ [] := by
            intro hq
            apply hz
            rw [hi2, hq]
            simp
          have : 0 < str.length := List.length_pos.2 hne
          simp only [List.length_drop]
          omega
        · rw [hi2]
          cases hq : (str.drop i).contains 47 with
          | false => rfl
          | true =>
            have hmem : (47 : Nat) ∈ str.drop i := by
              simpa using hq
            have : (47 : Nat) ∈ str := (List.drop_subset i str) hmem
            rw [show str.contains 47 = true by simpa using this] at h47
            exact Bool.noConfusion h47

/-- Claim C9 (amended): the global-replace loop terminates for every
subject, pattern and replacement, except when the parsed pattern
matches the empty window (it is then a non-empty run of `*`s) and the
subject contains the separator byte `/`: outside that combination every
round either ends the loop or strictly shortens the remaining suffix,
while inside it the round leaves the subject unchanged and the loop
runs forever. -/
theorem claim_C9 (str pat repl : List Nat)
    (h : pat.contains 42 = false ∨ filepathMatch pat [] = false ∨
      str.contains 47 = false) :
    (substAll pat repl str).isSome = true := by
  rcases h with h1 | h1 | h1
  · exact substAllF_isSome pat repl (Or.inl h1) _ str []
      (Nat.lt_succ_self _)
  · exact substAllF_isSome pat repl (Or.inr h1) _ str []
      (Nat.lt_succ_self _)
  · exact substAllF_isSome47 pat repl _ str [] (Nat.lt_succ_self _) h1

/-- Claim C9, witness: global replacement of `"l"` by `"x"` over
`"hello"` terminates (the pattern does not match the empty window). -/
theorem claim_C9_witness :
    (substAll [108] [120] [104, 101, 108, 108, 111]).isSome = true :=
  claim_C9 [104, 101, 108, 108, 111] [108] [120] (by decide)

/-! ### The plain-glob fragment: specification semantics (claim C2) -/

theorem specMatchF_fuel : ∀ (n : Nat) (p c : List Nat) (f1 f2 : Nat),
    p.length + c.length ≤ n → p.length + c.length < f1 →
    p.length + c.length < f2 → specMatchF f1 p c = specMatchF f2 p c := by
  intro n
  induction n with
  | zero =>
    intro p c f1 f2 hn h1 h2
    have hp : p = [] := List.length_eq_zero.1 (by omega)
    have hc : c = [] := List.length_eq_zero.1 (by omega)
    subst hp
    subst hc
    obtain ⟨g1, rfl⟩ : ∃ g, f1 = g + 1 := ⟨f1 - 1, by omega⟩
    obtain ⟨g2, rfl⟩ : ∃ g, f2 = g + 1 := ⟨f2 - 1, by omega⟩
    rfl
  | succ n ih =>
    intro p c f1 f2 hn h1 h2
    obtain ⟨g1, rfl⟩ : ∃ g, f1 = g + 1 := ⟨f1 - 1, by omega⟩
    obtain ⟨g2, rfl⟩ : ∃ g, f2 = g + 1 := ⟨f2 - 1, by omega⟩
    cases p with
    | nil => rfl
    | cons b p1 =>
      simp only [List.length_cons] at hn h1 h2
      by_cases hb42 : b = 42
      · subst hb42
        simp only [specMatchF]
        congr 1
        · exact ih p1 c g1 g2 (by omega) (by omega) (by omega)
        · cases c with
          | nil => rfl
          | cons c0 c1 =>
            simp only [List.length_cons] at hn h1 h2
            show specMatchF g1 (42 :: p1) c1 = specMatchF g2 (42 :: p1) c1
            exact ih (42 :: p1) c1 g1 g2
              (by (try simp only [List.length_cons]); omega)
              (by (try simp only [List.length_cons]); omega)
              (by (try simp only [List.length_cons]); omega)
      · by_cases hb63 : b = 63
        · subst hb63
          simp only [specMatchF]
          cases c with
          | nil => rfl
          | cons c0 c1 =>
            simp only [List.length_cons] at hn h1 h2
            show specMatchF g1 p1 c1 = specMatchF g2 p1 c1
            exact ih p1 c1 g1 g2 (by omega) (by omega) (by omega)
        · simp only [specMatchF, hb42, hb63]
          cases c with
          | nil => rfl
          | cons c0 c1 =>
            simp only [List.length_cons] at hn h1 h2
            show (b == c0 && specMatchF g1 p1 c1) =
              (b == c0 && specMatchF g2 p1 c1)
            congr 1
            exact ih p1 c1 g1 g2 (by omega) (by omega) (by omega)

theorem specMatch_nil (c : List Nat) : specMatch [] c = c.isEmpty := by
  rw [specMatch]
  rfl

theorem specMatch_star (p c : List Nat) :
    specMatch (42 :: p) c =
      (specMatch p c ||
        (match c with
         | [] => false
         | _ :: c1 => specMatch (42 :: p) c1)) := by
  rw [specMatch]
  have hL : (42 :: p).length + c.length + 1 =
      (p.length + c.length + 1) + 1 := by simp; omega
  rw [hL]
  simp only [specMatchF]
  congr 1
  cases c with
  | nil => rfl
  | cons c0 c1 =>
    show specMatchF (p.length + (c0 :: c1).length + 1) (42 :: p) c1 =
      specMatch (42 :: p) c1
    rw [specMatch]
    exact specMatchF_fuel ((42 :: p).length + c1.length) (42 :: p) c1
      (p.length + (c0 :: c1).length + 1) ((42 :: p).length + c1.length + 1)
      le_rfl (by (try simp only [List.length_cons]); omega)
      (by (try simp only [List.length_cons]); omega)

theorem specMatch_qm (p c : List Nat) :
    specMatch (63 :: p) c =
      (match c with
       | [] => false
       | _ :: c1 => specMatch p c1) := by
  rw [specMatch]
  have hL : (63 :: p).length + c.length + 1 =
      (p.length + c.length + 1) + 1 := by simp; omega
  rw [hL]
  simp only [specMatchF]
  cases c with
  | nil => rfl
  | cons c0 c1 =>
    show specMatchF (p.length + (c0 :: c1).length + 1) p c1 = specMatch p c1
    rw [specMatch]
    exact specMatchF_fuel (p.length + c1.length) p c1
      (p.length + (c0 :: c1).length + 1) (p.length + c1.length + 1)
      le_rfl (by (try simp only [List.length_cons]); omega)
      (by (try simp only [List.length_cons]); omega)

theorem specMatch_lit {b : Nat} (hb42 : b ≠ 42) (hb63 : b ≠ 63)
    (p c : List Nat) :
    specMatch (b :: p) c =
      (match c with
       | [] => false
       | b1 :: c1 => b == b1 && specMatch p c1) := by
  rw [specMatch]
  have hL : (b :: p).length + c.length + 1 =
      (p.length + c.length + 1) + 1 := by simp; omega
  rw [hL]
  simp only [specMatchF, hb42, hb63]
  cases c with
  | nil => rfl
  | cons c0 c1 =>
    show (b == c0 && specMatchF (p.length + (c0 :: c1).length + 1) p c1) =
      (b == c0 && specMatch p c1)
    rw [specMatch]
    congr 1
    exact specMatchF_fuel (p.length + c1.length) p c1
      (p.length + (c0 :: c1).length + 1) (p.length + c1.length + 1)
      le_rfl (by (try simp only [List.length_cons]); omega)
      (by (try simp only [List.length_cons]); omega)

theorem spec_star_iff (p c : List Nat) :
    specMatch (42 :: p) c = true ↔ ∃ k, specMatch p (c.drop k) = true := by
  constructor
  · intro h
    induction c with
    | nil =>
      rw [specMatch_star] at h
      simp only [Bool.or_false] at h
      exact ⟨0, h⟩
    | cons c0 c1 ih =>
      rw [specMatch_star] at h
      rcases Bool.or_eq_true_iff.1 h with h1 | h1
      · exact ⟨0, h1⟩
      · obtain ⟨k, hk⟩ := ih h1
        exact ⟨k + 1, by simpa using hk⟩
  · rintro ⟨k, hk⟩
    induction c generalizing k with
    | nil =>
      simp only [List.drop_nil] at hk
      rw [specMatch_star]
      simp [hk]
    | cons c0 c1 ih =>
      cases k with
      | zero =>
        simp only [List.drop_zero] at hk
        rw [specMatch_star]
        simp [hk]
      | succ k =>
        simp only [List.drop_succ_cons] at hk
        have := ih k hk
        rw [specMatch_star]
        simp [this]

theorem spec_star_mono (p s : List Nat) (j : Nat)
    (h : specMatch (42 :: p) (s.drop j) = true) :
    specMatch (42 :: p) s = true := by
  obtain ⟨k, hk⟩ := (spec_star_iff p (s.drop j)).1 h
  rw [List.drop_drop] at hk
  exact (spec_star_iff p s).2 ⟨j + k, hk⟩

theorem spec_chunk : ∀ (chunk q s : List Nat), 42 ∉ chunk →
    specMatch (chunk ++ q) s =
      (match chunkAccept chunk s with
       | some t => specMatch q t
       | none => false) := by
  intro chunk
  induction chunk with
  | nil => intro q s _; rfl
  | cons c chunk' ih =>
    intro q s h42
    have hc42 : c ≠ 42 := fun h => h42 (h ▸ List.mem_cons_self c chunk')
    have h42' : 42 ∉ chunk' := fun h => h42 (List.mem_cons_of_mem c h)
    by_cases hc63 : c = 63
    · subst hc63
      rw [List.cons_append, specMatch_qm]
      cases s with
      | nil => simp [chunkAccept]
      | cons b s1 =>
        simp only [chunkAccept]
        exact ih q s1 h42'
    · rw [List.cons_append, specMatch_lit hc42 hc63]
      cases s with
      | nil => simp [chunkAccept, hc63]
      | cons b s1 =>
        simp only [chunkAccept, hc63]
        by_cases hcb : c = b
        · subst hcb
          simp only [if_pos rfl, beq_self_eq_true, Bool.true_and]
          exact ih q s1 h42'
        · rw [if_neg hcb]
          have : (c == b) = false := by simpa using hcb
          simp [this]

theorem spec_allstars_nil : ∀ (p : List Nat), (∀ b ∈ p, b = 42) →
    specMatch p [] = true := by
  intro p
  induction p with
  | nil => intro _; rw [specMatch_nil]; rfl
  | cons b p' ih =>
    intro h
    obtain rfl : b = 42 := h b (List.mem_cons_self b p')
    rw [specMatch_star]
    have := ih fun x hx => h x (List.mem_cons_of_mem _ hx)
    simp [this]

theorem spec_allstars (p : List Nat) (hp : p ≠ []) (h : ∀ b ∈ p, b = 42)
    (s : List Nat) : specMatch p s = true := by
  obtain ⟨b, p', rfl⟩ : ∃ b p', p = b :: p' := by
    cases p with
    | nil => exact absurd rfl hp
    | cons b p' => exact ⟨b, p', rfl⟩
  obtain rfl : b = 42 := h b (List.mem_cons_self b p')
  refine (spec_star_iff p' s).2 ⟨s.length, ?_⟩
  rw [List.drop_length]
  exact spec_allstars_nil p' fun x hx => h x (List.mem_cons_of_mem _ hx)

theorem spec_stars_prefix : ∀ (st : List Nat), st ≠ [] → (∀ b ∈ st, b = 42) →
    ∀ (q s : List Nat),
      (specMatch (st ++ q) s = true ↔ ∃ j, specMatch q (s.drop j) = true) := by
  intro st
  induction st with
  | nil => intro h; exact absurd rfl h
  | cons b st' ih =>
    intro _ hall q s
    obtain rfl : b = 42 := hall b (List.mem_cons_self b st')
    rw [List.cons_append]
    rcases em (st' = []) with h' | h'
    · subst h'
      simpa using spec_star_iff q s
    · rw [spec_star_iff]
      constructor
      · rintro ⟨k, hk⟩
        obtain ⟨j, hj⟩ := (ih h' (fun x hx => hall x (List.mem_cons_of_mem _ hx))
          q (s.drop k)).1 hk
        rw [List.drop_drop] at hj
        exact ⟨k + j, hj⟩
      · rintro ⟨j, hj⟩
        refine ⟨0, ?_⟩
        rw [List.drop_zero]
        exact (ih h' (fun x hx => hall x (List.mem_cons_of_mem _ hx)) q s).2
          ⟨j, hj⟩

theorem chunkAccept_drop : ∀ (chunk s t : List Nat),
    chunkAccept chunk s = some t → t = s.drop chunk.length := by
  intro chunk
  induction chunk with
  | nil =>
    intro s t h
    simp only [chunkAccept, Option.some.injEq] at h
    simp [← h]
  | cons c chunk' ih =>
    intro s t h
    by_cases hc63 : c = 63
    · subst hc63
      cases s with
      | nil => simp [chunkAccept] at h
      | cons b s1 =>
        simp only [chunkAccept] at h
        simpa using ih s1 t h
    · cases s with
      | nil => simp [chunkAccept, hc63] at h
      | cons b s1 =>
        simp only [chunkAccept, hc63] at h
        rcases ite_eq_iff.1 h with ⟨-, h1⟩ | ⟨-, h1⟩
        · simpa using ih s1 t h1
        · exact Option.noConfusion h1

theorem candPlain_drop (s : List Nat) (k : Nat) (h : candPlain s = true) :
    candPlain (s.drop k) = true := by
  rw [candPlain, List.all_eq_true] at h ⊢
  exact fun b hb => h b (List.drop_subset k s hb)

/-! ### The plain-glob fragment: matcher side (claim C2) -/

theorem decodeRune_ascii {b : Nat} (h : b < 128) (s : List Nat) :
    decodeRune (b :: s) = (b, 1) := by
  simp [decodeRune, h]

theorem matchChunkF_fail_frag : ∀ (fuel : Nat) (chunk s : List Nat),
    chunk.length < fuel → 91 ∉ chunk → 92 ∉ chunk →
    matchChunkF fuel true chunk s = .nomatch := by
  intro fuel
  induction fuel with
  | zero => intro chunk s h _ _; omega
  | succ fuel ih =>
    intro chunk s hlen h91 h92
    cases chunk with
    | nil => rfl
    | cons c crest =>
      have hc91 : c ≠ 91 := fun h => h91 (h ▸ List.mem_cons_self c crest)
      have hc92 : c ≠ 92 := fun h => h92 (h ▸ List.mem_cons_self c crest)
      have h91' : 91 ∉ crest := fun h => h91 (List.mem_cons_of_mem c h)
      have h92' : 92 ∉ crest := fun h => h92 (List.mem_cons_of_mem c h)
      have hlen' : crest.length < fuel := by
        simp only [List.length_cons] at hlen
        omega
      simp only [matchChunkF, Bool.true_or, if_neg hc91, if_neg hc92]
      by_cases hq : c = 63
      · simp only [if_pos hq, if_true]
        exact ih crest s hlen' h91' h92'
      · simp only [if_neg hq, if_true]
        exact ih crest s hlen' h91' h92'

theorem matchChunkF_frag : ∀ (fuel : Nat) (chunk s : List Nat),
    chunk.length < fuel → 91 ∉ chunk → 92 ∉ chunk → candPlain s = true →
    matchChunkF fuel false chunk s =
      (match chunkAccept chunk s with
       | some t => .ok t
       | none => .nomatch) := by
  intro fuel
  induction fuel with
  | zero => intro chunk s h _ _ _; omega
  | succ fuel ih =>
    intro chunk s hlen h91 h92 hs
    cases chunk with
    | nil => rfl
    | cons c crest =>
      have hc91 : c ≠ 91 := fun h => h91 (h ▸ List.mem_cons_self c crest)
      have hc92 : c ≠ 92 := fun h => h92 (h ▸ List.mem_cons_self c crest)
      have h91' : 91 ∉ crest := fun h => h91 (List.mem_cons_of_mem c h)
      have h92' : 92 ∉ crest := fun h => h92 (List.mem_cons_of_mem c h)
      have hlen' : crest.length < fuel := by
        simp only [List.length_cons] at hlen
        omega
      cases s with
      | nil =>
        have heq : matchChunkF (fuel + 1) false (c :: crest) [] =
            matchChunkF (fuel + 1) true (c :: crest) [] := by
          simp only [matchChunkF, List.isEmpty_nil, Bool.or_true, Bool.true_or]
        rw [heq, matchChunkF_fail_frag (fuel + 1) (c :: crest) []
          (by simpa using hlen) h91 h92]
        by_cases hq : c = 63 <;> simp [chunkAccept, hq]
      | cons b s1 =>
        have hb : b < 128 ∧ b ≠ 47 ∧ candPlain s1 = true := by
          rw [candPlain] at hs
          simp only [List.all_cons, Bool.and_eq_true] at hs
          refine ⟨by simpa using hs.1.1, by simpa using hs.1.2, ?_⟩
          rw [candPlain]
          exact hs.2
        simp only [matchChunkF, List.isEmpty_cons, Bool.or_false,
          if_neg hc91, if_neg hc92]
        by_cases hq : c = 63
        · simp only [if_pos hq, if_false]
          have h47 : (List.headD (b :: s1) 0 == 47) = false := by
            simp only [List.headD_cons]
            simpa using hb.2.1
          rw [h47, decodeRune_ascii hb.1]
          simp only [List.drop_succ_cons, List.drop_zero]
          rw [ih crest s1 hlen' h91' h92' hb.2.2]
          simp [chunkAccept, hq]
        · simp only [if_neg hq, if_false]
          by_cases hcb : c = b
          · have hne : (c != List.headD (b :: s1) 0) = false := by
              simp [hcb]
            rw [hne]
            simp only [List.drop_succ_cons, List.drop_zero]
            rw [ih crest s1 hlen' h91' h92' hb.2.2]
            subst hcb
            simp [chunkAccept, hq]
          · have hne : (c != List.headD (b :: s1) 0) = true := by
              simpa using hcb
            rw [hne]
            simp only [List.drop_succ_cons, List.drop_zero]
            rw [matchChunkF_fail_frag fuel crest s1 hlen' h91' h92']
            simp [chunkAccept, hq, hcb]

theorem matchChunk_frag (chunk s : List Nat)
    (h91 : 91 ∉ chunk) (h92 : 92 ∉ chunk) (hs : candPlain s = true) :
    matchChunk chunk s =
      (match chunkAccept chunk s with
       | some t => .ok t
       | none => .nomatch) :=
  matchChunkF_frag (chunk.length + 1) chunk s (Nat.lt_succ_self _) h91 h92 hs

theorem candPlain_cons {b : Nat} {s : List Nat}
    (h : candPlain (b :: s) = true) :
    b < 128 ∧ b ≠ 47 ∧ candPlain s = true := by
  rw [candPlain] at h
  simp only [List.all_cons, Bool.and_eq_true] at h
  exact ⟨by simpa using h.1.1, by simpa using h.1.2, h.2⟩

theorem starLoopF_no_abort (chunk : List Nat)
    (h91 : 91 ∉ chunk) (h92 : 92 ∉ chunk) (restEmpty : Bool) :
    ∀ s, candPlain s = true → starLoopF chunk restEmpty s ≠ .abort := by
  intro s
  induction s with
  | nil => intro _ h; exact StarRes.noConfusion h
  | cons b s1 ih =>
    intro hs h
    obtain ⟨hb128, hb47, hs1⟩ := candPlain_cons hs
    rw [starLoopF, if_neg hb47,
      matchChunk_frag chunk s1 h91 h92 hs1] at h
    rcases haccept : chunkAccept chunk s1 with - | t
    · rw [haccept] at h
      exact ih hs1 h
    · rw [haccept] at h
      simp only at h
      split at h
      · exact ih hs1 h
      · exact StarRes.noConfusion h

theorem starLoopF_found (chunk : List Nat)
    (h91 : 91 ∉ chunk) (h92 : 92 ∉ chunk) (restEmpty : Bool) :
    ∀ s t, candPlain s = true → starLoopF chunk restEmpty s = .found t →
      ∃ j, 1 ≤ j ∧ chunkAccept chunk (s.drop j) = some t ∧
        (restEmpty = true → t = []) ∧
        (∀ j', 1 ≤ j' → j' < j → restEmpty = false →
          chunkAccept chunk (s.drop j') = none) := by
  intro s
  induction s with
  | nil => intro t _ h; exact absurd h (by intro hq; exact StarRes.noConfusion hq)
  | cons b s1 ih =>
    intro t hs h
    obtain ⟨hb128, hb47, hs1⟩ := candPlain_cons hs
    rw [starLoopF, if_neg hb47, matchChunk_frag chunk s1 h91 h92 hs1] at h
    rcases haccept : chunkAccept chunk s1 with - | t0
    · rw [haccept] at h
      obtain ⟨j, hj1, hj2, hj3, hj4⟩ := ih t hs1 h
      refine ⟨j + 1, by omega, by simpa using hj2, hj3, ?_⟩
      intro j' h1 h2 h3
      obtain ⟨m, rfl⟩ : ∃ m, j' = m + 1 := ⟨j' - 1, by omega⟩
      simp only [List.drop_succ_cons]
      rcases Nat.eq_zero_or_pos m with rfl | hm
      · simpa using haccept
      · exact hj4 m hm (by omega) h3
    · rw [haccept] at h
      simp only at h
      split at h
      · rename_i hcond
        obtain ⟨j, hj1, hj2, hj3, hj4⟩ := ih t hs1 h
        refine ⟨j + 1, by omega, by simpa using hj2, hj3, ?_⟩
        intro j' h1 h2 h3
        obtain ⟨m, rfl⟩ : ∃ m, j' = m + 1 := ⟨j' - 1, by omega⟩
        simp only [List.drop_succ_cons]
        rcases Nat.eq_zero_or_pos m with rfl | hm
        · rw [h3] at hcond
          simp at hcond
        · exact hj4 m hm (by omega) h3
      · rename_i hcond
        obtain rfl : t0 = t := by
          injection h
        refine ⟨1, le_rfl, by simpa using haccept, ?_, by omega⟩
        intro hre
        rw [hre] at hcond
        by_contra hne
        exact hcond ⟨rfl, hne⟩

theorem starLoopF_exhausted (chunk : List Nat)
    (h91 : 91 ∉ chunk) (h92 : 92 ∉ chunk) (restEmpty : Bool)
    (hch : chunk ≠ []) :
    ∀ s, candPlain s = true → starLoopF chunk restEmpty s = .exhausted →
      ∀ j t, 1 ≤ j → chunkAccept chunk (s.drop j) = some t →
        restEmpty = true ∧ t ≠ [] := by
  intro s
  induction s with
  | nil =>
    intro _ _ j t _ hacc
    obtain ⟨c, crest, rfl⟩ : ∃ c crest, chunk = c :: crest := by
      cases chunk with
      | nil => exact absurd rfl hch
      | cons c crest => exact ⟨c, crest, rfl⟩
    rw [List.drop_nil] at hacc
    by_cases hq : c = 63 <;> simp [chunkAccept, hq] at hacc
  | cons b s1 ih =>
    intro hs h j t hj hacc
    obtain ⟨hb128, hb47, hs1⟩ := candPlain_cons hs
    rw [starLoopF, if_neg hb47, matchChunk_frag chunk s1 h91 h92 hs1] at h
    obtain ⟨m, rfl⟩ : ∃ m, j = m + 1 := ⟨j - 1, by omega⟩
    simp only [List.drop_succ_cons] at hacc
    rcases haccept : chunkAccept chunk s1 with - | t0
    · rw [haccept] at h
      rcases Nat.eq_zero_or_pos m with rfl | hm
      · rw [List.drop_zero] at hacc
        rw [haccept] at hacc
        exact Option.noConfusion hacc
      · exact ih hs1 h m t hm hacc
    · rw [haccept] at h
      simp only at h
      split at h
      · rename_i hcond
        rcases Nat.eq_zero_or_pos m with rfl | hm
        · rw [List.drop_zero, haccept] at hacc
          obtain rfl : t0 = t := by injection hacc
          exact ⟨hcond.1, hcond.2⟩
        · exact ih hs1 h m t hm hacc
      · exact StarRes.noConfusion h

theorem bool_eq_of_iff {a b : Bool} (h : a = true ↔ b = true) : a = b := by
  cases a <;> cases b <;> simp_all

theorem patPlain_no91 {p : List Nat} (h : patPlain p = true) : 91 ∉ p := by
  intro hm
  rw [patPlain, List.all_eq_true] at h
  have := h 91 hm
  simp at this

theorem patPlain_no92 {p : List Nat} (h : patPlain p = true) : 92 ∉ p := by
  intro hm
  rw [patPlain, List.all_eq_true] at h
  have := h 92 hm
  simp at this

theorem patPlain_of_subset {p q : List Nat} (hsub : ∀ x ∈ q, x ∈ p)
    (h : patPlain p = true) : patPlain q = true := by
  rw [patPlain, List.all_eq_true] at h ⊢
  exact fun x hx => h x (hsub x hx)

theorem candPlain_no47 {s : List Nat} (h : candPlain s = true) :
    s.contains 47 = false := by
  rw [candPlain, List.all_eq_true] at h
  by_contra hq
  have hmem : (47 : Nat) ∈ s := by
    cases hc : s.contains 47 with
    | false => exact absurd hc hq
    | true => simpa using hc
  have := h 47 hmem
  simp at this

theorem scanBody_plain : ∀ (p : List Nat) (inr : Bool), inr = false →
    91 ∉ p → 92 ∉ p →
    scanBody p inr =
      (p.takeWhile (fun x => x != 42), p.dropWhile (fun x => x != 42)) := by
  intro p inr
  induction p, inr using scanBody.induct
  case case1 => intro _ _ _; rfl
  case case2 c rest inr ih =>
    intro _ _ h92
    exact absurd (List.mem_cons_self 92 _) h92
  case case3 =>
    intro _ _ h92
    exact absurd (List.mem_cons_self 92 _) h92
  case case4 rest inr ih =>
    intro _ h91 _
    exact absurd (List.mem_cons_self 91 _) h91
  case case5 rest inr ih =>
    intro hinr h91 h92
    have := ih rfl (fun hm => h91 (List.mem_cons_of_mem _ hm))
      (fun hm => h92 (List.mem_cons_of_mem _ hm))
    simp [scanBody, this, List.takeWhile_cons, List.dropWhile_cons]
  case case6 rest ih =>
    intro hinr _ _
    exact Bool.noConfusion hinr
  case case7 rest inr hni =>
    intro hinr _ _
    subst hinr
    simp [scanBody, List.takeWhile_cons, List.dropWhile_cons]
  case case8 b rest inr hn1 hn2 hn3 hn4 hn5 ih =>
    intro hinr h91 h92
    have hb91 : b ≠ 91 := fun h => h91 (h ▸ List.mem_cons_self b rest)
    have hb92 : b ≠ 92 := fun h => h92 (h ▸ List.mem_cons_self b rest)
    have hb93 : b ≠ 93 := fun h => hn4 (h ▸ rfl)
    have hb42 : b ≠ 42 := fun h => hn5 (h ▸ rfl)
    have := ih hinr (fun hm => h91 (List.mem_cons_of_mem _ hm))
      (fun hm => h92 (List.mem_cons_of_mem _ hm))
    subst hinr
    simp [scanBody, hb91, hb92, hb93, hb42, this, List.takeWhile_cons,
      List.dropWhile_cons]

theorem scanChunkGo_plain : ∀ (star0 : Bool) (p : List Nat),
    91 ∉ p → 92 ∉ p →
    scanChunkGo star0 p = ((star0 || (p.headD 0 == 42)),
      (p.dropWhile (fun x => x == 42)).takeWhile (fun x => x != 42),
      (p.dropWhile (fun x => x == 42)).dropWhile (fun x => x != 42)) := by
  intro star0 p
  induction star0, p using scanChunkGo.induct
  case case1 star rest ih =>
    intro h91 h92
    rw [scanChunkGo]
    rw [ih (fun hm => h91 (List.mem_cons_of_mem _ hm))
      (fun hm => h92 (List.mem_cons_of_mem _ hm))]
    simp [List.dropWhile_cons]
  case case2 star p hne =>
    intro h91 h92
    rw [scanChunkGo.eq_2 star p hne]
    have hhead : (p.headD 0 == 42) = false := by
      cases p with
      | nil => rfl
      | cons b q =>
        simp only [List.headD_cons, beq_eq_false_iff_ne, ne_eq]
        intro hb
        exact hne q (by rw [hb])
    have hdw : p.dropWhile (fun x => x == 42) = p := by
      cases p with
      | nil => rfl
      | cons b q =>
        rw [List.dropWhile_cons]
        have : (b == 42) = false := by simpa using hhead
        simp [this]
    rw [scanBody_plain p false rfl h91 h92, hhead, hdw]
    simp

theorem dropWhile_head_not : ∀ (l : List Nat) (p : Nat → Bool) (hd : Nat)
    (tl : List Nat), l.dropWhile p = hd :: tl → p hd = false := by
  intro l
  induction l with
  | nil => intro p hd tl h; exact List.noConfusion h
  | cons a l1 ih =>
    intro p hd tl h
    rw [List.dropWhile_cons] at h
    by_cases hp : p a = true
    · rw [if_pos hp] at h
      exact ih p hd tl h
    · rw [if_neg hp] at h
      obtain ⟨h1, h2⟩ := List.cons.inj h
      cases hq : p a with
      | false => rw [← h1]; exact hq
      | true => exact absurd hq hp

theorem plainMatch_eq : ∀ (n : Nat) (p : List Nat), p.length ≤ n →
    patPlain p = true → ∀ s, candPlain s = true →
    filepathMatch p s = specMatch p s := by
  intro n
  induction n with
  | zero =>
    intro p hp _ s _
    have hpnil : p = [] := List.length_eq_zero.mp (Nat.le_zero.mp hp)
    subst hpnil
    rw [specMatch_nil]
    rfl
  | succ n ih =>
    intro p hp hpp s hs
    cases p with
    | nil =>
      rw [specMatch_nil]
      rfl
    | cons b pb =>
      have h91 := patPlain_no91 hpp
      have h92 := patPlain_no92 hpp
      have hscan := scanChunkGo_plain false (b :: pb) h91 h92
      set stars : List Nat := (b :: pb).takeWhile (fun x => x == 42) with hstars
      set base : List Nat := (b :: pb).dropWhile (fun x => x == 42) with hbase
      set chunk : List Nat := base.takeWhile (fun x => x != 42) with hchunk
      set rest : List Nat := base.dropWhile (fun x => x != 42) with hrest
      have hsc : scanChunk (b :: pb) = ((b == 42), chunk, rest) := by
        rw [scanChunk, hscan]
        simp
      have hsplit1 : stars ++ base = b :: pb := by
        rw [hstars, hbase]
        exact List.takeWhile_append_dropWhile (fun x => x == 42) (b :: pb)
      have hsplit2 : chunk ++ rest = base := by
        rw [hchunk, hrest]
        exact List.takeWhile_append_dropWhile (fun x => x != 42) base
      have hstars42 : ∀ x ∈ stars, x = 42 := by
        intro x hx
        rw [hstars] at hx
        have := List.mem_takeWhile_imp hx
        simpa using this
      have hchunk42 : 42 ∉ chunk := by
        intro hx
        rw [hchunk] at hx
        have := List.mem_takeWhile_imp hx
        simp at this
      have hchunksub : ∀ x ∈ chunk, x ∈ b :: pb := by
        intro x hx
        rw [← hsplit1]
        refine List.mem_append_right _ ?_
        rw [← hsplit2]
        exact List.mem_append_left _ hx
      have hrestsub : ∀ x ∈ rest, x ∈ b :: pb := by
        intro x hx
        rw [← hsplit1]
        refine List.mem_append_right _ ?_
        rw [← hsplit2]
        exact List.mem_append_right _ hx
      have hch91 : 91 ∉ chunk := fun hx => h91 (hchunksub 91 hx)
      have hch92 : 92 ∉ chunk := fun hx => h92 (hchunksub 92 hx)
      have hrestplain : patPlain rest = true := patPlain_of_subset hrestsub hpp
      have hrestlt : rest.length ≤ n := by
        have hq := scanChunk_rest_lt (p := b :: pb) (by simp)
        rw [hsc] at hq
        simp only [List.length_cons] at hq hp
        omega
      have hIH : ∀ t, candPlain t = true →
          filepathMatch rest t = specMatch rest t :=
        fun t ht => ih rest hrestlt hrestplain t ht
      rw [filepathMatch_cons b pb s (b == 42) chunk rest hsc]
      by_cases hstarnil : stars = []
      · -- no leading stars: the chunk starts the pattern and must match at 0
        have hb42 : (b == 42) = false := by
          cases hq : (b == 42) with
          | false => rfl
          | true =>
            have h2 := hstarnil
            rw [hstars, List.takeWhile_cons, if_pos hq] at h2
            exact List.noConfusion h2
        have hbase_eq : base = b :: pb := by
          rw [hbase, List.dropWhile_cons]
          simp [hb42]
        have hp_eq : chunk ++ rest = b :: pb := by rw [hsplit2, hbase_eq]
        have hnotcond : ¬((b == 42) = true ∧ chunk = []) := by
          intro hcond
          rw [hb42] at hcond
          exact Bool.noConfusion hcond.1
        rw [if_neg hnotcond, matchChunk_frag chunk s hch91 hch92 hs]
        have hspec : specMatch (b :: pb) s =
            (match chunkAccept chunk s with
             | some t => specMatch rest t
             | none => false) := by
          rw [← hp_eq]
          exact spec_chunk chunk rest s hchunk42
        rw [hspec]
        rcases haccept : chunkAccept chunk s with - | t
        · simp [haccept, hb42]
        · simp only [haccept]
          by_cases ht0 : t = [] ∨ rest ≠ []
          · rw [if_pos ht0]
            refine hIH t ?_
            have := chunkAccept_drop chunk s t haccept
            rw [this]
            exact candPlain_drop s chunk.length hs
          · rw [if_neg ht0]
            push_neg at ht0
            obtain ⟨htne, hrnil⟩ := ht0
            rw [hrnil, specMatch_nil]
            have hie : t.isEmpty = false := by
              cases t with
              | nil => exact absurd rfl htne
              | cons _ _ => rfl
            rw [hie]
            simp [hb42]
      · -- leading stars present
        have hb42 : (b == 42) = true := by
          cases hq : (b == 42) with
          | true => rfl
          | false =>
            exfalso
            apply hstarnil
            rw [hstars, List.takeWhile_cons]
            simp [hq]
        have hp_eq : stars ++ (chunk ++ rest) = b :: pb := by
          rw [hsplit2, hsplit1]
        have hspec_iff : specMatch (b :: pb) s = true ↔
            ∃ j t, chunkAccept chunk (s.drop j) = some t ∧
              specMatch rest t = true := by
          rw [← hp_eq, spec_stars_prefix stars hstarnil hstars42 (chunk ++ rest) s]
          constructor
          · rintro ⟨j, hj⟩
            rw [spec_chunk chunk rest _ hchunk42] at hj
            rcases haccept : chunkAccept chunk (s.drop j) with - | t
            · rw [haccept] at hj
              simp at hj
            · rw [haccept] at hj
              exact ⟨j, t, haccept, hj⟩
          · rintro ⟨j, t, h1, h2⟩
            refine ⟨j, ?_⟩
            rw [spec_chunk chunk rest _ hchunk42, h1]
            exact h2
        by_cases hchnil : chunk = []
        · -- the pattern is a nonempty run of stars
          rw [if_pos ⟨hb42, hchnil⟩]
          have h47 : s.contains 47 = false := candPlain_no47 hs
          have hallp : ∀ x ∈ b :: pb, x = 42 := by
            have hbnil : base = [] := by
              cases hbc : base with
              | nil => rfl
              | cons hd tl =>
                exfalso
                have h0 : chunk = (hd :: tl).takeWhile (fun x => x != 42) := by
                  rw [hchunk, hbc]
                rw [hchnil, List.takeWhile_cons] at h0
                have hhd : (hd != 42) = false := by
                  cases hq : (hd != 42) with
                  | false => rfl
                  | true =>
                    rw [if_pos hq] at h0
                    exact List.noConfusion h0
                have hhd42 : hd = 42 := by simpa using hhd
                have hcontra := dropWhile_head_not (b :: pb) (fun x => x == 42)
                  hd tl (by rw [← hbase, hbc])
                rw [hhd42] at hcontra
                simp at hcontra
            intro x hx
            rw [← hsplit1, hbnil, List.append_nil] at hx
            exact hstars42 x hx
          rw [h47, spec_allstars (b :: pb) (List.cons_ne_nil b pb) hallp s]
          rfl
        · -- stars followed by a nonempty chunk
          have hnotcond : ¬((b == 42) = true ∧ chunk = []) := fun hc => hchnil hc.2
          rw [if_neg hnotcond, matchChunk_frag chunk s hch91 hch92 hs]
          have hrest_form : rest = [] ∨ ∃ r1, rest = 42 :: r1 := by
            cases hrc : rest with
            | nil => exact Or.inl rfl
            | cons hd tl =>
              refine Or.inr ⟨tl, ?_⟩
              have hhd := dropWhile_head_not base (fun x => x != 42) hd tl
                (by rw [← hrest, hrc])
              have hhd42 : hd = 42 := by simpa using hhd
              rw [hhd42]
          by_cases hrnil : rest = []
          · -- the chunk ends the pattern: the star loop must consume everything
            have hre : rest.isEmpty = true := by rw [hrnil]; rfl
            rcases haccept : chunkAccept chunk s with - | t0
            · simp only [haccept]
              rw [if_pos hb42, hre]
              rcases hsl : starLoopF chunk true s with - | - | t1
              · exact absurd hsl (starLoopF_no_abort chunk hch91 hch92 true s hs)
              · have hgoal : specMatch (b :: pb) s = false := by
                  cases hq : specMatch (b :: pb) s with
                  | false => rfl
                  | true =>
                    exfalso
                    obtain ⟨j, t, hacc, hsp⟩ := hspec_iff.1 hq
                    rw [hrnil, specMatch_nil] at hsp
                    have htnil : t = [] := by
                      cases t with
                      | nil => rfl
                      | cons _ _ => exact Bool.noConfusion hsp
                    cases j with
                    | zero =>
                      rw [List.drop_zero, haccept] at hacc
                      exact Option.noConfusion hacc
                    | succ j0 =>
                      have hx := starLoopF_exhausted chunk hch91 hch92 true
                        hchnil s hs hsl (j0 + 1) t (by omega) hacc
                      exact hx.2 htnil
                rw [hgoal]
              · show filepathMatch rest t1 = specMatch (b :: pb) s
                obtain ⟨j1, hj1, hacc1, hte, hmin⟩ :=
                  starLoopF_found chunk hch91 hch92 true s t1 hs hsl
                have ht1 : t1 = [] := hte rfl
                have hspec : specMatch (b :: pb) s = true := by
                  refine hspec_iff.2 ⟨j1, t1, hacc1, ?_⟩
                  rw [hrnil, ht1, specMatch_nil]
                  rfl
                rw [hspec, hrnil, ht1]
                rfl
            · simp only [haccept]
              by_cases ht0 : t0 = []
              · rw [if_pos (Or.inl ht0)]
                have hspec : specMatch (b :: pb) s = true := by
                  refine hspec_iff.2 ⟨0, t0, ?_, ?_⟩
                  · rw [List.drop_zero]
                    exact haccept
                  · rw [hrnil, ht0, specMatch_nil]
                    rfl
                rw [hspec, hrnil, ht0]
                rfl
              · rw [if_neg (by
                  intro hor
                  rcases hor with h1 | h2
                  · exact ht0 h1
                  · exact h2 hrnil)]
                rw [if_pos hb42, hre]
                rcases hsl : starLoopF chunk true s with - | - | t1
                · exact absurd hsl (starLoopF_no_abort chunk hch91 hch92 true s hs)
                · have hgoal : specMatch (b :: pb) s = false := by
                    cases hq : specMatch (b :: pb) s with
                    | false => rfl
                    | true =>
                      exfalso
                      obtain ⟨j, t, hacc, hsp⟩ := hspec_iff.1 hq
                      rw [hrnil, specMatch_nil] at hsp
                      have htnil : t = [] := by
                        cases t with
                        | nil => rfl
                        | cons _ _ => exact Bool.noConfusion hsp
                      cases j with
                      | zero =>
                        rw [List.drop_zero, haccept] at hacc
                        have ht0t := Option.some.inj hacc
                        exact ht0 (ht0t.trans htnil)
                      | succ j0 =>
                        have hx := starLoopF_exhausted chunk hch91 hch92 true
                          hchnil s hs hsl (j0 + 1) t (by omega) hacc
                        exact hx.2 htnil
                  rw [hgoal]
                · show filepathMatch rest t1 = specMatch (b :: pb) s
                  obtain ⟨j1, hj1, hacc1, hte, hmin⟩ :=
                    starLoopF_found chunk hch91 hch92 true s t1 hs hsl
                  have ht1 : t1 = [] := hte rfl
                  have hspec : specMatch (b :: pb) s = true := by
                    refine hspec_iff.2 ⟨j1, t1, hacc1, ?_⟩
                    rw [hrnil, ht1, specMatch_nil]
                    rfl
                  rw [hspec, hrnil, ht1]
                  rfl
          · -- the pattern continues after the chunk with another star
            obtain ⟨r1, hr42⟩ := hrest_form.resolve_left hrnil
            have hre : rest.isEmpty = false := by rw [hr42]; rfl
            have hmono : ∀ (t : List Nat) (j : Nat),
                specMatch rest (t.drop j) = true → specMatch rest t = true := by
              intro t j h
              rw [hr42] at h ⊢
              exact spec_star_mono r1 t j h
            rcases haccept : chunkAccept chunk s with - | t0
            · simp only [haccept]
              rw [if_pos hb42, hre]
              rcases hsl : starLoopF chunk false s with - | - | t1
              · exact absurd hsl (starLoopF_no_abort chunk hch91 hch92 false s hs)
              · have hgoal : specMatch (b :: pb) s = false := by
                  cases hq : specMatch (b :: pb) s with
                  | false => rfl
                  | true =>
                    exfalso
                    obtain ⟨j, t, hacc, hsp⟩ := hspec_iff.1 hq
                    cases j with
                    | zero =>
                      rw [List.drop_zero, haccept] at hacc
                      exact Option.noConfusion hacc
                    | succ j0 =>
                      have hx := starLoopF_exhausted chunk hch91 hch92 false
                        hchnil s hs hsl (j0 + 1) t (by omega) hacc
                      exact Bool.noConfusion hx.1
                rw [hgoal]
              · show filepathMatch rest t1 = specMatch (b :: pb) s
                obtain ⟨j1, hj1, hacc1, hte, hmin⟩ :=
                  starLoopF_found chunk hch91 hch92 false s t1 hs hsl
                have ht1drop : t1 = s.drop (j1 + chunk.length) := by
                  have h1 := chunkAccept_drop chunk (s.drop j1) t1 hacc1
                  rw [List.drop_drop] at h1
                  exact h1
                have hcand1 : candPlain t1 = true := by
                  rw [ht1drop]
                  exact candPlain_drop s _ hs
                rw [hIH t1 hcand1]
                refine bool_eq_of_iff
                  ⟨fun h => hspec_iff.2 ⟨j1, t1, hacc1, h⟩, fun h => ?_⟩
                obtain ⟨jw, tw, haccw, hspw⟩ := hspec_iff.1 h
                rcases Nat.lt_or_ge jw j1 with hlt | hge
                · cases jw with
                  | zero =>
                    rw [List.drop_zero, haccept] at haccw
                    exact Option.noConfusion haccw
                  | succ j0 =>
                    have hnone := hmin (j0 + 1) (by omega) hlt rfl
                    rw [hnone] at haccw
                    exact Option.noConfusion haccw
                · have htw : tw = t1.drop (jw - j1) := by
                    have h1 := chunkAccept_drop chunk (s.drop jw) tw haccw
                    rw [List.drop_drop] at h1
                    rw [ht1drop, List.drop_drop, h1]
                    congr 1
                    omega
                  apply hmono t1 (jw - j1)
                  rw [← htw]
                  exact hspw
            · simp only [haccept]
              rw [if_pos (Or.inr hrnil)]
              have ht0drop : t0 = s.drop chunk.length :=
                chunkAccept_drop chunk s t0 haccept
              have hcand0 : candPlain t0 = true := by
                rw [ht0drop]
                exact candPlain_drop s _ hs
              rw [hIH t0 hcand0]
              refine bool_eq_of_iff
                ⟨fun h => hspec_iff.2 ⟨0, t0, by
                  rw [List.drop_zero]; exact haccept, h⟩, fun h => ?_⟩
              obtain ⟨jw, tw, haccw, hspw⟩ := hspec_iff.1 h
              have htw : tw = t0.drop jw := by
                have h1 := chunkAccept_drop chunk (s.drop jw) tw haccw
                rw [List.drop_drop] at h1
                rw [ht0drop, List.drop_drop, h1]
                congr 1
                omega
              apply hmono t0 jw
              rw [← htw]
              exact hspw

/-- Claim C2 (amended): on the fragment where the pattern is made of
ASCII bytes other than `[` (no character classes) and `\` (no escapes),
and the candidate is made of ASCII bytes other than the path separator
`/`, the matcher used by every scan strategy agrees exactly with the
spec's anchored glob semantics: `*` matches any byte sequence including
the empty one, `?` matches exactly one byte, any other byte matches only
itself, and the whole pattern must consume the whole candidate.  Outside
this fragment the claim fails, because `*` and `?` never match the
separator byte (see the counterexample). -/
theorem claim_C2 (p : List Nat) (hp : patPlain p = true)
    (s : List Nat) (hs : candPlain s = true) :
    filepathMatch p s = specMatch p s :=
  plainMatch_eq p.length p le_rfl hp s hs

theorem claim_C2_witness :
    patPlain [104, 42, 108, 111] = true ∧
    candPlain [104, 101, 108, 108, 111] = true ∧
    filepathMatch [104, 42, 108, 111] [104, 101, 108, 108, 111] =
      specMatch [104, 42, 108, 111] [104, 101, 108, 108, 111] :=
  ⟨by decide, by decide,
    claim_C2 [104, 42, 108, 111] (by decide) [104, 101, 108, 108, 111] (by decide)⟩

end ShSubst
